import Mathlib

/-!
# Prime counting with worker processes (`primecount.cpp`)

A shallow embedding of the pure parts of `primecount.cpp`:

* `is_prime_basic`, `count_primes_interval`, `run_sequential`: C++ `int` values are
  integers, and the arithmetic that can leave the 32-bit range (`i * i`, `i += 2`,
  `i++`) is wrapped modulo `2^32` (`wrap32`).  A loop whose exit depends on wrapped
  values is given an iteration budget; `none` means the budget ran out.
* the interval assignment of `run_concurrent` (`worker_intervals`) and its two
  aggregation loops (`collect_pipe`, `collect_shm`);
* `main`: the argument validation, with `std::stoi` modelled after the C++ standard,
  and the status the process ends with once the call has been made, given what the
  system grants to `run_concurrent` (`Resources`).

Two smaller programs of the repository follow in namespaces of their own: the seat
reservation of `cinema.c` (`Cinema`) and the wait loop of `ex6.c` (`Ex6`).
-/

namespace PrimeCount

/-! ## Machine integers -/

/-- Largest value of a 32-bit `int`. -/
def INT_MAX : Int := 2147483647

/-- Smallest value of a 32-bit `int`. -/
def INT_MIN : Int := -2147483648

/-- Two's-complement reduction of an integer to the 32-bit signed range. -/
def wrap32 (x : Int) : Int := (x + 2147483648) % 4294967296 - 2147483648

/-- Two's-complement reduction of an integer to the 64-bit signed range. -/
def wrap64 (x : Int) : Int :=
  (x + 9223372036854775808) % 18446744073709551616 - 9223372036854775808

/-! ## Part B: primality and the worker task -/

/-- The loop `for (int i = 3; i * i <= n; i += 2) if (n % i == 0) return false;`
followed by `return true`.  The first argument is the iteration budget. -/
def is_prime_loop : Nat → Int → Int → Option Bool
  | 0, _, _ => none
  | fuel + 1, n, i =>
    if wrap32 (i * i) ≤ n then
      if Int.tmod n i = 0 then some false
      else is_prime_loop fuel n (wrap32 (i + 2))
    else some true

/-- Iteration budget of `is_prime_basic`: the odd values `3, 5, ..., INT_MAX`. -/
def is_prime_fuel : Nat := 1073741824

/-- Embedding of `bool is_prime_basic(int n)`. -/
def is_prime_basic (n : Int) : Option Bool :=
  if n < 2 then some false
  else if n = 2 then some true
  else if Int.tmod n 2 = 0 then some false
  else is_prime_loop is_prime_fuel n 3

/-- The loop `for (int i = start; i <= end; i++) if (is_prime_basic(i)) prime_count++;`
of `count_primes_interval`.  The counter `prime_count` is a `long long` that is
incremented at most once per `int` value, so it never leaves the 64-bit range. -/
def count_loop : Nat → Int → Int → Int → Option Int
  | 0, _, _, _ => none
  | fuel + 1, i, end_, prime_count =>
    if i ≤ end_ then
      match is_prime_basic i with
      | none => none
      | some b => count_loop fuel (wrap32 (i + 1)) end_ (if b then prime_count + 1 else prime_count)
    else some prime_count

/-- Iteration budget of `count_primes_interval`: one test per `int` value plus the
final failing test. -/
def count_fuel : Nat := 4294967297

/-- Embedding of `long long count_primes_interval(int start, int end)`. -/
def count_primes_interval (start end_ : Int) : Option Int :=
  count_loop count_fuel start end_ 0

/-- Embedding of `long long run_sequential(int N)`. -/
def run_sequential (N : Int) : Option Int :=
  count_primes_interval 2 N

/-! ## Part C: the concurrent version -/

/-- The fork loop of `run_concurrent`, reduced to the interval each worker is given:
`k` iterations remain, `i` is the worker index, `current_start` the running start. -/
def assign_intervals (base_chunk_size extra_numbers : Int) :
    Nat → Int → Int → List (Int × Int)
  | 0, _, _ => []
  | k + 1, i, current_start =>
    let chunk_size := base_chunk_size + (if i < extra_numbers then 1 else 0)
    let current_end := current_start + chunk_size - 1
    (current_start, current_end) ::
      assign_intervals base_chunk_size extra_numbers k (i + 1) (current_end + 1)

/-- The intervals `[current_start, current_end]` of workers `0 .. P-1`
in `run_concurrent(N, P, _)`.  The sums are not wrapped: for `2 ≤ N < INT_MAX` every
value the loop computes lies between `1` and `N + 1` (`worker_intervals_fit_int`). -/
def worker_intervals (N P : Int) : List (Int × Int) :=
  let total_numbers := N - 1
  let base_chunk_size := Int.tdiv total_numbers P
  let extra_numbers := Int.tmod total_numbers P
  assign_intervals base_chunk_size extra_numbers P.toNat 0 2

/-- The aggregation loop over the pipes.  `read i` is the outcome of the single
`read` on the read end of pipe `i`: `some v` when it returned a positive count and
stored `v`, `none` when it returned `0` or `-1`.  Returns the total and the list of
channels on which a `read` was issued, in order. -/
def collect_pipe (read : Nat → Option Int) : Nat → Nat → Int → List Nat → Int × List Nat
  | 0, _, total_primes, issued => (total_primes, issued)
  | k + 1, i, total_primes, issued =>
    match read i with
    | some partial_primes =>
      collect_pipe read k (i + 1) (wrap64 (total_primes + partial_primes)) (issued ++ [i])
    | none => collect_pipe read k (i + 1) total_primes (issued ++ [i])

/-- The aggregation loop over the shared-memory slots. -/
def collect_shm (shared_results : Nat → Int) : Nat → Nat → Int → Int
  | 0, _, total_primes => total_primes
  | k + 1, i, total_primes =>
    collect_shm shared_results k (i + 1) (wrap64 (total_primes + shared_results i))

/-- The parent waits for every child: it goes on only when all of them have ended. -/
def wait_all : List (Option Int) → Option (List Int)
  | [] => some []
  | none :: _ => none
  | some primes_found :: rest => (wait_all rest).map fun found => primes_found :: found

/-- Embedding of `run_concurrent(N, P, ipc_type)` when every resource is granted and
every worker delivers its result: worker `i` counts the primes of its interval and
publishes the count in pipe `i` or slot `i`; the parent adds up what it collects.
`none` stands for no value returned (a worker that never ends, or `exit(1)` on an
unknown `ipc_type`). -/
def run_concurrent (N P : Int) (ipc_type : String) : Option Int :=
  if ipc_type = "pipe" then
    match wait_all ((worker_intervals N P).map fun w => count_primes_interval w.1 w.2) with
    | none => none
    | some primes_found => some (collect_pipe (fun i => primes_found[i]?) P.toNat 0 0 []).1
  else if ipc_type = "shm" then
    match wait_all ((worker_intervals N P).map fun w => count_primes_interval w.1 w.2) with
    | none => none
    | some primes_found => some (collect_shm (fun i => primes_found.getD i 0) P.toNat 0 0)
  else none

/-! ## Part A: `main` and validation -/

/-- The characters `isspace` accepts in the C locale. -/
def isspace (c : Char) : Bool :=
  c.toNat = 32 || (9 ≤ c.toNat && c.toNat ≤ 13)

/-- The value of a run of decimal digits. -/
def digits_value (ds : List Char) : Int :=
  ds.foldl (fun acc c => 10 * acc + ((c.toNat : Int) - 48)) 0

/-- Model of `std::stoi(str)` (base 10, no position output): leading white space is
skipped, an optional sign and the longest run of digits are read, what follows is
ignored.  `none` stands for an exception: `invalid_argument` when there is no digit,
`out_of_range` when the value does not fit an `int`. -/
def stoi (str : String) : Option Int :=
  let body := str.toList.dropWhile isspace
  let negative := body.head? = some '-'
  let unsigned := if body.head? = some '-' ∨ body.head? = some '+' then body.tail else body
  let ds := unsigned.takeWhile Char.isDigit
  if ds = [] then none
  else
    let v := if negative then - digits_value ds else digits_value ds
    if INT_MIN ≤ v ∧ v ≤ INT_MAX then some v else none

/-- The computation `main` hands over to. -/
inductive Call where
  | seq (N : Int)
  | par (N P : Int) (ipc : String)
  deriving DecidableEq, Repr

/-- What the operating system grants to one run: whether the `pipe` call of
iteration `i` succeeds, whether `mmap` succeeds, and whether the `fork` of
iteration `i` succeeds.  Heap allocation (`new`) is taken to succeed. -/
structure Resources where
  pipe_ok : Nat → Bool
  mmap_ok : Bool
  fork_ok : Nat → Bool

/-- The run in which every resource is granted. -/
def all_granted : Resources :=
  ⟨fun _ => true, true, fun _ => true⟩

/-- How a call ends: it returns a total, the process ends through `exit(status)`,
or it never returns. -/
inductive Outcome where
  | returned (total : Int)
  | exited (status : Int)
  | never_returns
  deriving DecidableEq, Repr

/-- The call `run_sequential(N)` as `main` sees it. -/
def run_sequential_outcome (N : Int) : Outcome :=
  match run_sequential N with
  | some total => Outcome.returned total
  | none => Outcome.never_returns

/-- The call `run_concurrent(N, P, ipc_type)` as `main` sees it, with the failure
exits of the source: `exit(1)` when a `pipe` cannot be created, when `mmap` fails,
on an unknown `ipc_type`, and when a `fork` fails; otherwise the parent waits for its
workers and returns the total, or never returns when a worker never ends. -/
def run_concurrent_outcome (env : Resources) (N P : Int) (ipc_type : String) : Outcome :=
  if ipc_type = "pipe" ∧ (List.range P.toNat).all env.pipe_ok = false then Outcome.exited 1
  else if ipc_type = "shm" ∧ env.mmap_ok = false then Outcome.exited 1
  else if ipc_type ≠ "pipe" ∧ ipc_type ≠ "shm" then Outcome.exited 1
  else if (List.range P.toNat).all env.fork_ok = false then Outcome.exited 1
  else
    match run_concurrent N P ipc_type with
    | some total => Outcome.returned total
    | none => Outcome.never_returns

/-- The status of the process once `main` has made its call: `return 0` after the
call returns, the status of `exit` when the call ends the process, and none when the
call never returns. -/
def status_after : Outcome → Option Int
  | Outcome.returned _ => some 0
  | Outcome.exited status => some status
  | Outcome.never_returns => none

/-- What `main` does: the call it makes, if any, and the status the process ends
with (`none` when it never ends). -/
structure MainResult where
  exit_code : Option Int
  call : Option Call
  deriving DecidableEq, Repr

/-- Embedding of `main(argc, argv)`; `argv` includes the program name, `argc` is its
length, `env` is what the system grants to `run_concurrent`.  The search for `--algo`
only sets a variable that is never read, and the timing and printing do not influence
the status; they are left out.  On the accepted paths the call is made and `return 0`
is reached only when the call returns. -/
def main (env : Resources) (argv : List String) : MainResult :=
  if argv.length < 3 then ⟨some 1, none⟩
  else
    let mode := argv.getD 1 ""
    match stoi (argv.getD 2 "") with
    | none => ⟨some 1, none⟩
    | some N =>
      if N < 2 then ⟨some 1, none⟩
      else if mode = "par" then
        if argv.length < 5 then ⟨some 1, none⟩
        else
          match stoi (argv.getD 3 "") with
          | none => ⟨some 1, none⟩
          | some P =>
            if P < 1 then ⟨some 1, none⟩
            else
              let ipc := argv.getD 4 ""
              if ipc ≠ "pipe" ∧ ipc ≠ "shm" then ⟨some 1, none⟩
              else ⟨status_after (run_concurrent_outcome env N P ipc), some (Call.par N P ipc)⟩
      else if mode ≠ "seq" then ⟨some 1, none⟩
      else ⟨status_after (run_sequential_outcome N), some (Call.seq N)⟩

/-! ## Specification-level quantities -/

/-- The number of integers `i` with `start ≤ i ≤ end_` on which `is_prime_basic`
returns `true`. -/
def primes_in (start end_ : Int) : Nat :=
  ((Finset.Icc start end_).filter fun i => is_prime_basic i = some true).card

/-- Closed form of how many numbers workers `0 .. i-1` receive together:
`i` base chunks and one extra number for each of the first `extra_numbers` workers. -/
def chunk_offset (base_chunk_size extra_numbers i : Int) : Int :=
  i * base_chunk_size + (if i < extra_numbers then i else extra_numbers)

/-- The resources `run_concurrent(N, P, ipc_type)` asks for are all granted: the `P`
pipes or the mapping, and the `P` processes. -/
def resources_granted (env : Resources) (P : Int) (ipc_type : String) : Bool :=
  (if ipc_type = "pipe" then (List.range P.toNat).all env.pipe_ok else env.mmap_ok) &&
    (List.range P.toNat).all env.fork_ok

/-- An argument that is, in its entirety, an optionally signed decimal integer
literal: an optional `+` or `-` followed by one or more digits and nothing else. -/
def is_integer_literal (s : String) : Bool :=
  let cs := s.toList
  let ds := if cs.head? = some '-' ∨ cs.head? = some '+' then cs.tail else cs
  !ds.isEmpty && ds.all Char.isDigit

/-- What channel `i` adds to the total: its payload when one was delivered, else `0`. -/
def contribution (read : Nat → Option Int) (i : Nat) : Int :=
  (read i).getD 0

/-- Square-and-multiply modular exponentiation with an explicit iteration budget. -/
def pow_mod_acc (m : Nat) : Nat → Nat → Nat → Nat → Nat
  | 0, _, _, acc => acc
  | f + 1, b, e, acc =>
    if e = 0 then acc
    else pow_mod_acc m f (b * b % m) (e / 2) (if e % 2 = 1 then acc * b % m else acc)

end PrimeCount

namespace Cinema

/-! ## The cinema room (`cinema.c`) -/

/-- Number of rows, `#define FILEIRAS 5`. -/
def FILEIRAS : Nat := 5

/-- Seats per row, `#define ASSENTOS_POR_FILEIRA 10`. -/
def ASSENTOS_POR_FILEIRA : Nat := 10

/-- The global `Sala sala`: the seat matrix (`0` = free, otherwise the id of the
client) and the two statistics counters. -/
structure Sala where
  assentos : List (List Int)
  reservas_sucesso : Int
  reservas_falha : Int
  deriving DecidableEq, Repr

/-- Embedding of `inicializar_sala`: every seat and both counters are set to `0`. -/
def inicializar_sala : Sala :=
  ⟨List.replicate FILEIRAS (List.replicate ASSENTOS_POR_FILEIRA 0), 0, 0⟩

/-- The value of `sala.assentos[i][j]`, when both indices are inside the array. -/
def assento (sala : Sala) (i j : Nat) : Option Int :=
  match sala.assentos[i]? with
  | some fila => fila[j]?
  | none => none

/-- The search loop `for (j = 0; j < ASSENTOS_POR_FILEIRA - 1; j++)` of
`tentar_reserva` on one row: the first `j` with seats `j` and `j + 1` both free.
`k` iterations remain. -/
def buscar_par (fila : List Int) : Nat → Nat → Option Nat
  | 0, _ => none
  | k + 1, j =>
    if fila[j]? = some 0 ∧ fila[j + 1]? = some 0 then some j
    else buscar_par fila k (j + 1)

/-- Embedding of `tentar_reserva(cliente_id, fileira)` run on its own (the mutex and
the simulated latency do not touch the room): the new room and the value returned. -/
def tentar_reserva (sala : Sala) (cliente_id : Int) (fileira : Nat) : Sala × Int :=
  match buscar_par (sala.assentos.getD fileira []) (ASSENTOS_POR_FILEIRA - 1) 0 with
  | some j =>
    ({ sala with
        assentos := sala.assentos.set fileira
          (((sala.assentos.getD fileira []).set j cliente_id).set (j + 1) cliente_id) },
      1)
  | none => (sala, 0)

/-- A finite sequence of `tentar_reserva(cliente_id, fileira)` calls executed one at
a time: the final room and the values returned, in call order. -/
def executar : Sala → List (Int × Nat) → Sala × List Int
  | sala, [] => (sala, [])
  | sala, (cliente_id, fileira) :: resto =>
    ((executar (tentar_reserva sala cliente_id fileira).1 resto).1,
      (tentar_reserva sala cliente_id fileira).2 ::
        (executar (tentar_reserva sala cliente_id fileira).1 resto).2)

/-- The count `total_ocupados` of `main`: the seats whose value is not `0`. -/
def total_ocupados (sala : Sala) : Nat :=
  (sala.assentos.map fun fila => fila.countP fun a => a ≠ 0).sum

/-- The shape of the room: `FILEIRAS` rows of `ASSENTOS_POR_FILEIRA` seats. -/
def bem_formada (sala : Sala) : Prop :=
  sala.assentos.length = FILEIRAS ∧ ∀ fila ∈ sala.assentos, fila.length = ASSENTOS_POR_FILEIRA

end Cinema

namespace Ex6

/-! ## Fork and wait (`ex6.c`) -/

/-- Number of children, `#define NUM_CHILDREN 5`; also the size of `child_returns`. -/
def NUM_CHILDREN : Nat := 5

/-- The status child `i` ends with: `_exit(i+1)`. -/
def child_exit_status (i : Nat) : Int := (i : Int) + 1

/-- The macro `WEXITSTATUS`: the low eight bits of the exit status. -/
def WEXITSTATUS (exit_status : Int) : Int := exit_status % 256

/-- The array `child_returns` of the parent (`none` = never assigned) and the
indices of the stores that fell outside the array. -/
structure WaitState where
  child_returns : List (Option Int)
  out_of_bounds : List Int
  deriving DecidableEq, Repr

/-- The array before the wait loop: `NUM_CHILDREN` entries, none assigned. -/
def before_wait : WaitState :=
  ⟨List.replicate NUM_CHILDREN none, []⟩

/-- The store `child_returns[result] = result`. -/
def store_result (s : WaitState) (result : Int) : WaitState :=
  if 0 ≤ result ∧ result < NUM_CHILDREN then
    { s with child_returns := s.child_returns.set result.toNat (some result) }
  else
    { s with out_of_bounds := s.out_of_bounds ++ [result] }

/-- The wait loop of `main`: `terminated` lists the children in the order in which
`wait` reports them; each has exited, so `WIFEXITED` holds and
`result = WEXITSTATUS(status)` is stored. -/
def wait_loop : List Nat → WaitState → WaitState
  | [], s => s
  | i :: terminated, s =>
    wait_loop terminated (store_result s (WEXITSTATUS (child_exit_status i)))

end Ex6

namespace PrimeCount

/-! ## Machine arithmetic -/

theorem wrap32_of_range (x : Int) (h1 : -2147483648 ≤ x) (h2 : x ≤ 2147483647) :
    wrap32 x = x := by
  unfold wrap32; omega

theorem wrap32_le_max (x : Int) : wrap32 x ≤ 2147483647 := by
  unfold wrap32; omega

theorem wrap32_ge_min (x : Int) : -2147483648 ≤ wrap32 x := by
  unfold wrap32; omega

theorem wrap64_of_range (x : Int) (h1 : -9223372036854775808 ≤ x)
    (h2 : x ≤ 9223372036854775807) : wrap64 x = x := by
  unfold wrap64; omega

theorem wrap64_idem (x : Int) : wrap64 (wrap64 x) = wrap64 x := by
  unfold wrap64; omega

theorem wrap64_add_left (a b : Int) : wrap64 (wrap64 a + b) = wrap64 (a + b) := by
  unfold wrap64; omega

/-! ## `is_prime_basic` -/

/-- Below `46339^2` the loop of `is_prime_basic` never overflows and decides primality. -/
theorem is_prime_loop_small (n : Nat) (hodd : n % 2 = 1) (hlt : n < 2147302921) :
    ∀ (fuel i : Nat), i % 2 = 1 → 3 ≤ i → (i = 3 ∨ (i - 2) * (i - 2) ≤ n) → 3 ≤ n →
      (∀ d, 2 ≤ d → d < i → ¬ d ∣ n) → 46342 - i < fuel →
      is_prime_loop fuel (n : Int) (i : Int) = some (decide n.Prime) := by
  intro fuel
  induction fuel with
  | zero => intro i _ _ _ _ _ hf; omega
  | succ fuel ih =>
    intro i hi2 hi3 hinv hn3 hnd hf
    have hi : i ≤ 46340 := by
      rcases hinv with h | h
      · omega
      · by_contra hc
        have h1 : 46339 ≤ i - 2 := by omega
        have := Nat.mul_le_mul h1 h1
        omega
    have hii : i * i ≤ 46340 * 46340 := Nat.mul_le_mul hi hi
    have hw : wrap32 ((i : Int) * (i : Int)) = ((i * i : Nat) : Int) := by
      rw [wrap32_of_range] <;> push_cast <;> omega
    have hw2 : wrap32 ((i : Int) + 2) = ((i + 2 : Nat) : Int) := by
      rw [wrap32_of_range] <;> push_cast <;> omega
    have hmod : Int.tmod (n : Int) (i : Int) = ((n % i : Nat) : Int) :=
      (Int.ofNat_tmod n i).symm
    unfold is_prime_loop
    rw [hw, hw2, hmod]
    by_cases hle : i * i ≤ n
    · have hle' : ((i * i : Nat) : Int) ≤ (n : Int) := by exact_mod_cast hle
      rw [if_pos hle']
      by_cases hdiv : n % i = 0
      · have hdiv' : ((n % i : Nat) : Int) = 0 := by exact_mod_cast hdiv
        rw [if_pos hdiv']
        have hnp : ¬ n.Prime := by
          intro hp
          have hd : i ∣ n := Nat.dvd_of_mod_eq_zero hdiv
          rcases (Nat.dvd_prime hp).1 hd with h | h
          · omega
          · subst h
            have : 3 * i ≤ i * i := Nat.mul_le_mul_right i hi3
            omega
        simp [hnp]
      · have hdiv' : ¬ ((n % i : Nat) : Int) = 0 := by exact_mod_cast hdiv
        rw [if_neg hdiv']
        apply ih (i + 2) (by omega) (by omega) _ hn3 _ (by omega)
        · right; simpa using hle
        · intro d hd2 hdlt hdn
          by_cases h1 : d < i
          · exact hnd d hd2 h1 hdn
          · by_cases h2 : d = i
            · subst h2; exact hdiv (Nat.mod_eq_zero_of_dvd hdn)
            · have hd : d = i + 1 := by omega
              have h2n : 2 ∣ n := Nat.dvd_trans (by omega) hdn
              omega
    · have hle' : ¬ ((i * i : Nat) : Int) ≤ (n : Int) := by exact_mod_cast hle
      rw [if_neg hle']
      have hp : n.Prime := by
        by_contra hnp
        have h1 : n.minFac ^ 2 ≤ n := Nat.minFac_sq_le_self (by omega) hnp
        have h2 : 2 ≤ n.minFac := (Nat.minFac_prime (by omega)).two_le
        have h3 : n.minFac ∣ n := Nat.minFac_dvd n
        by_cases h4 : n.minFac < i
        · exact hnd _ h2 h4 h3
        · have h5 : i * i ≤ n.minFac * n.minFac := Nat.mul_le_mul (by omega) (by omega)
          rw [pow_two] at h1
          omega
      simp [hp]

/-- On non-negative inputs below `46339^2`, `is_prime_basic` returns and decides
primality. -/
theorem is_prime_basic_small (n : Nat) (hlt : n < 2147302921) :
    is_prime_basic (n : Int) = some (decide n.Prime) := by
  unfold is_prime_basic
  by_cases h2 : n < 2
  · have : ((n : Int) < 2) := by exact_mod_cast h2
    rw [if_pos this]
    have hnp : ¬ n.Prime := fun hp => by have := hp.two_le; omega
    simp [hnp]
  · have h2' : ¬ ((n : Int) < 2) := by exact_mod_cast h2
    rw [if_neg h2']
    by_cases h3 : n = 2
    · subst h3; simp [Nat.prime_two]
    · have h3' : ¬ ((n : Int) = 2) := by exact_mod_cast h3
      rw [if_neg h3']
      have hmod : Int.tmod (n : Int) 2 = ((n % 2 : Nat) : Int) :=
        (Int.ofNat_tmod n 2).symm
      rw [hmod]
      by_cases h4 : n % 2 = 0
      · have h4' : ((n % 2 : Nat) : Int) = 0 := by exact_mod_cast h4
        rw [if_pos h4']
        have hnp : ¬ n.Prime := by
          intro hp
          rcases (Nat.dvd_prime hp).1 (Nat.dvd_of_mod_eq_zero h4) with h | h <;> omega
        simp [hnp]
      · have h4' : ¬ ((n % 2 : Nat) : Int) = 0 := by exact_mod_cast h4
        rw [if_neg h4']
        have := is_prime_loop_small n (by omega) hlt is_prime_fuel 3 (by norm_num) (by norm_num)
          (Or.inl rfl) (by omega) ?_ (by unfold is_prime_fuel; omega)
        · simpa using this
        · intro d hd2 hdlt hdn
          have hd : d = 2 := by omega
          subst hd
          omega

/-- For an odd `n`, the loop reaches `i = n` at the latest, where `n % i == 0`:
with enough budget it returns. -/
theorem is_prime_loop_returns (n : Int) (hodd : n % 2 = 1) (hmax : n ≤ 2147483647) :
    ∀ (fuel : Nat) (i : Int), i % 2 = 1 → 3 ≤ i → i ≤ n → (n - i) / 2 < fuel →
      ∃ b, is_prime_loop fuel n i = some b := by
  intro fuel
  induction fuel with
  | zero => intro i _ _ _ hf; omega
  | succ fuel ih =>
    intro i hi2 hi3 hin hf
    unfold is_prime_loop
    by_cases hle : wrap32 (i * i) ≤ n
    · rw [if_pos hle]
      by_cases hdiv : Int.tmod n i = 0
      · rw [if_pos hdiv]; exact ⟨false, rfl⟩
      · rw [if_neg hdiv]
        have hne : i ≠ n := by
          intro h
          subst h
          exact hdiv (Int.tmod_self)
        rw [wrap32_of_range (i + 2) (by omega) (by omega)]
        exact ih (i + 2) (by omega) (by omega) (by omega) (by omega)
    · rw [if_neg hle]; exact ⟨true, rfl⟩

/-- The function `is_prime_basic` returns on every `int`. -/
theorem is_prime_basic_returns (n : Int) (hmax : n ≤ 2147483647) :
    ∃ b, is_prime_basic n = some b := by
  unfold is_prime_basic
  by_cases h1 : n < 2
  · rw [if_pos h1]; exact ⟨false, rfl⟩
  · rw [if_neg h1]
    by_cases h2 : n = 2
    · rw [if_pos h2]; exact ⟨true, rfl⟩
    · rw [if_neg h2]
      by_cases h3 : Int.tmod n 2 = 0
      · rw [if_pos h3]; exact ⟨false, rfl⟩
      · rw [if_neg h3]
        rw [Int.tmod_eq_emod (by omega) (by omega)] at h3
        exact is_prime_loop_returns n (by omega) hmax is_prime_fuel 3 (by omega) (by omega)
          (by omega) (by unfold is_prime_fuel; omega)

/-- At `n = INT_MAX` the test `i * i <= n` can never fail, so the loop only stops at
a divisor, and `i = n` is one. -/
theorem is_prime_loop_int_max :
    ∀ (fuel : Nat) (i : Int), i % 2 = 1 → 3 ≤ i → i ≤ 2147483647 →
      (2147483647 - i) / 2 < fuel → is_prime_loop fuel 2147483647 i = some false := by
  intro fuel
  induction fuel with
  | zero => intro i _ _ _ hf; omega
  | succ fuel ih =>
    intro i hi2 hi3 hin hf
    unfold is_prime_loop
    rw [if_pos (wrap32_le_max (i * i))]
    by_cases hdiv : Int.tmod 2147483647 i = 0
    · rw [if_pos hdiv]
    · rw [if_neg hdiv]
      have hne : i ≠ 2147483647 := by
        intro h
        subst h
        exact hdiv (Int.tmod_self)
      rw [wrap32_of_range (i + 2) (by omega) (by omega)]
      exact ih (i + 2) (by omega) (by omega) (by omega) (by omega)

/-! ## The prime `2^31 - 1` -/

theorem pow_mod_acc_spec (m : Nat) : ∀ (f b e acc : Nat), e < 2 ^ f →
    pow_mod_acc m f b e acc ≡ acc * b ^ e [MOD m] := by
  intro f
  induction f with
  | zero =>
    intro b e acc he
    have : e = 0 := by simpa using he
    subst this
    simp [pow_mod_acc, Nat.ModEq]
  | succ f ih =>
    intro b e acc he
    unfold pow_mod_acc
    by_cases h0 : e = 0
    · simp [h0, Nat.ModEq]
    · simp only [h0, if_false]
      have he2 : e / 2 < 2 ^ f := by
        rw [pow_succ] at he
        omega
      refine (ih _ _ _ he2).trans ?_
      have hbe : b ^ e = (b * b) ^ (e / 2) * b ^ (e % 2) := by
        rw [← pow_two, ← pow_mul, ← pow_add, Nat.div_add_mod]
      have hsq : (b * b % m) ^ (e / 2) ≡ (b * b) ^ (e / 2) [MOD m] :=
        (Nat.mod_modEq _ _).pow _
      by_cases h1 : e % 2 = 1
      · simp only [h1, if_true]
        rw [hbe, h1, pow_one]
        have h3 : acc * b % m * (b * b % m) ^ (e / 2) ≡ acc * b * (b * b) ^ (e / 2) [MOD m] :=
          (Nat.mod_modEq _ _).mul hsq
        refine h3.trans ?_
        rw [Nat.mul_assoc, Nat.mul_comm b]
      · have h1' : e % 2 = 0 := by omega
        simp only [h1, if_false]
        rw [hbe, h1', pow_zero, mul_one]
        exact (Nat.ModEq.refl acc).mul hsq

theorem zmod_pow_of_pow_mod_acc (p e r : Nat) (b : Nat) (h : pow_mod_acc p 32 b e 1 = r)
    (he : e < 2 ^ 32) : ((b : ZMod p)) ^ e = (r : ZMod p) := by
  have h1 := pow_mod_acc_spec p 32 b e 1 he
  rw [h, one_mul] at h1
  have h2 := (ZMod.natCast_eq_natCast_iff _ _ p).2 h1
  rw [h2]; push_cast; rfl

theorem mersenne31_prime : Nat.Prime 2147483647 := by
  have hfac : (2147483647 - 1 : Nat) = 2 * (3 * (3 * (7 * (11 * (31 * (151 * 331)))))) := by norm_num
  refine lucas_primality 2147483647 ((7 : Nat) : ZMod 2147483647) ?_ ?_
  · have := zmod_pow_of_pow_mod_acc 2147483647 (2147483647 - 1) 1 7 (by decide) (by norm_num)
    simpa using this
  · intro q hq hdvd
    have hne : ∀ e r : Nat, pow_mod_acc 2147483647 32 7 e 1 = r → e < 2 ^ 32 → r ≠ 1 →
        r < 2147483647 → ((7 : Nat) : ZMod 2147483647) ^ e ≠ 1 := by
      intro e r h he hr hlt heq
      rw [zmod_pow_of_pow_mod_acc 2147483647 e r 7 h he] at heq
      have : ((r : Nat) : ZMod 2147483647) = ((1 : Nat) : ZMod 2147483647) := by simpa using heq
      rw [ZMod.natCast_eq_natCast_iff] at this
      have h2 : r % 2147483647 = 1 % 2147483647 := this
      rw [Nat.mod_eq_of_lt hlt] at h2
      exact hr (by simpa using h2)
    have hq' : q = 2 ∨ q = 3 ∨ q = 7 ∨ q = 11 ∨ q = 31 ∨ q = 151 ∨ q = 331 := by
      rw [hfac] at hdvd
      have p2 : Nat.Prime 2 := by norm_num
      have p3 : Nat.Prime 3 := by norm_num
      have p7 : Nat.Prime 7 := by norm_num
      have p11 : Nat.Prime 11 := by norm_num
      have p31 : Nat.Prime 31 := by norm_num
      have p151 : Nat.Prime 151 := by norm_num
      have p331 : Nat.Prime 331 := by norm_num
      rcases (Nat.Prime.dvd_mul hq).1 hdvd with h | h
      · exact Or.inl ((Nat.prime_dvd_prime_iff_eq hq p2).1 h)
      rcases (Nat.Prime.dvd_mul hq).1 h with h | h
      · exact Or.inr (Or.inl ((Nat.prime_dvd_prime_iff_eq hq p3).1 h))
      rcases (Nat.Prime.dvd_mul hq).1 h with h | h
      · exact Or.inr (Or.inl ((Nat.prime_dvd_prime_iff_eq hq p3).1 h))
      rcases (Nat.Prime.dvd_mul hq).1 h with h | h
      · exact Or.inr (Or.inr (Or.inl ((Nat.prime_dvd_prime_iff_eq hq p7).1 h)))
      rcases (Nat.Prime.dvd_mul hq).1 h with h | h
      · exact Or.inr (Or.inr (Or.inr (Or.inl ((Nat.prime_dvd_prime_iff_eq hq p11).1 h))))
      rcases (Nat.Prime.dvd_mul hq).1 h with h | h
      · exact Or.inr (Or.inr (Or.inr (Or.inr (Or.inl ((Nat.prime_dvd_prime_iff_eq hq p31).1 h)))))
      rcases (Nat.Prime.dvd_mul hq).1 h with h | h
      · exact Or.inr (Or.inr (Or.inr (Or.inr (Or.inr (Or.inl ((Nat.prime_dvd_prime_iff_eq hq p151).1 h))))))
      · exact Or.inr (Or.inr (Or.inr (Or.inr (Or.inr (Or.inr ((Nat.prime_dvd_prime_iff_eq hq p331).1 h))))))
    rcases hq' with h | h | h | h | h | h | h <;> subst h
    · exact hne _ _ rfl (by norm_num) (by decide) (by decide)
    · exact hne _ _ rfl (by norm_num) (by decide) (by decide)
    · exact hne _ _ rfl (by norm_num) (by decide) (by decide)
    · exact hne _ _ rfl (by norm_num) (by decide) (by decide)
    · exact hne _ _ rfl (by norm_num) (by decide) (by decide)
    · exact hne _ _ rfl (by norm_num) (by decide) (by decide)
    · exact hne _ _ rfl (by norm_num) (by decide) (by decide)

/-! ## `count_primes_interval` -/

theorem primes_in_empty (start end_ : Int) (h : end_ < start) : primes_in start end_ = 0 := by
  unfold primes_in
  rw [Finset.Icc_eq_empty (by omega)]
  rfl

theorem primes_in_step (i end_ : Int) (h : i ≤ end_) :
    primes_in i end_ = (if is_prime_basic i = some true then 1 else 0) + primes_in (i + 1) end_ := by
  unfold primes_in
  have hI : Finset.Icc i end_ = insert i (Finset.Icc (i + 1) end_) := by
    ext x
    simp only [Finset.mem_Icc, Finset.mem_insert]
    omega
  have hni : i ∉ Finset.Icc (i + 1) end_ := by
    simp only [Finset.mem_Icc]
    omega
  rw [hI, Finset.filter_insert]
  by_cases hp : is_prime_basic i = some true
  · rw [if_pos hp, if_pos hp, Finset.card_insert_of_not_mem]
    · omega
    · intro hc
      exact hni (Finset.mem_of_mem_filter _ hc)
  · rw [if_neg hp, if_neg hp]
    omega

theorem primes_in_split (a b c : Int) (h1 : a ≤ b + 1) (h2 : b ≤ c) :
    primes_in a c = primes_in a b + primes_in (b + 1) c := by
  unfold primes_in
  have hI : Finset.Icc a c = Finset.Icc a b ∪ Finset.Icc (b + 1) c := by
    ext x
    simp only [Finset.mem_Icc, Finset.mem_union]
    omega
  have hd : Disjoint (Finset.Icc a b) (Finset.Icc (b + 1) c) := by
    rw [Finset.disjoint_left]
    intro x hx hx2
    simp only [Finset.mem_Icc] at hx hx2
    omega
  rw [hI, Finset.filter_union, Finset.card_union_of_disjoint]
  exact Finset.disjoint_filter_filter hd

theorem primes_in_le (a b : Int) : (primes_in a b : Int) ≤ max (b + 1 - a) 0 := by
  unfold primes_in
  have h1 := Finset.card_filter_le (Finset.Icc a b) (fun i => is_prime_basic i = some true)
  have h2 : (Finset.Icc a b).card = (b + 1 - a).toNat := Int.card_Icc a b
  have h3 : ((b + 1 - a).toNat : Int) = max (b + 1 - a) 0 := Int.toNat_eq_max _
  omega

/-- With enough budget and `end_ < INT_MAX` the counting loop returns the running
count plus the number of primes left to visit. -/
theorem count_loop_spec (end_ : Int) (he : end_ < 2147483647) :
    ∀ (fuel : Nat) (i c : Int), -2147483648 ≤ i → i ≤ end_ + 1 → (end_ + 1 - i) < fuel →
      count_loop fuel i end_ c = some (c + primes_in i end_) := by
  intro fuel
  induction fuel with
  | zero =>
    intro i c hi hie hf
    push_cast at hf
    omega
  | succ fuel ih =>
    intro i c hi hie hf
    unfold count_loop
    by_cases hle : i ≤ end_
    · rw [if_pos hle]
      obtain ⟨b, hb⟩ := is_prime_basic_returns i (by omega)
      rw [hb]
      simp only
      rw [wrap32_of_range (i + 1) (by omega) (by omega)]
      rw [ih (i + 1) _ (by omega) (by omega) (by push_cast at hf ⊢; omega),
        primes_in_step i end_ hle, hb]
      cases b
      · simp
      · simp
        ring
    · rw [if_neg hle, primes_in_empty i end_ (by omega)]
      simp

theorem count_primes_interval_empty (start end_ : Int) (h : end_ < start) :
    count_primes_interval start end_ = some 0 := by
  unfold count_primes_interval count_fuel count_loop
  rw [if_neg (by omega)]

theorem count_primes_interval_spec (start end_ : Int) (hs : -2147483648 ≤ start)
    (he : end_ < 2147483647) :
    count_primes_interval start end_ = some (primes_in start end_ : Int) := by
  by_cases h : start ≤ end_ + 1
  · unfold count_primes_interval
    rw [count_loop_spec end_ he count_fuel start 0 hs h (by unfold count_fuel; push_cast; omega)]
    simp
  · rw [count_primes_interval_empty start end_ (by omega), primes_in_empty start end_ (by omega)]
    rfl

/-! ## The interval assignment of `run_concurrent` -/

theorem chunk_offset_succ (base extra i : Int) :
    chunk_offset base extra (i + 1) =
      chunk_offset base extra i + (base + (if i < extra then 1 else 0)) := by
  unfold chunk_offset
  split_ifs <;> first | omega | (ring_nf; omega) | ring_nf

theorem assign_intervals_length (base extra : Int) :
    ∀ (k : Nat) (i cs : Int), (assign_intervals base extra k i cs).length = k := by
  intro k
  induction k with
  | zero => intro i cs; rfl
  | succ k ih => intro i cs; simp [assign_intervals, ih]

theorem assign_intervals_get (base extra : Int) :
    ∀ (k : Nat) (i cs : Int) (j : Nat), j < k →
      (assign_intervals base extra k i cs)[j]? =
        some (cs + (chunk_offset base extra (i + j) - chunk_offset base extra i),
              cs + (chunk_offset base extra (i + j + 1) - chunk_offset base extra i) - 1) := by
  intro k
  induction k with
  | zero => intro i cs j hj; omega
  | succ k ih =>
    intro i cs j hj
    unfold assign_intervals
    cases j with
    | zero =>
      simp only [List.getElem?_cons_zero, Nat.cast_zero, add_zero, sub_self]
      rw [chunk_offset_succ]
      congr 2
      ring
    | succ j =>
      simp only [List.getElem?_cons_succ]
      rw [ih (i + 1) _ j (by omega), chunk_offset_succ base extra i]
      push_cast
      have e1 : i + 1 + (j : Int) = i + ((j : Int) + 1) := by ring
      rw [e1]
      congr 2 <;> ring

/-- Closed form of worker `j`'s interval. -/
theorem worker_intervals_get (N P : Int) (hN : 2 ≤ N) (hP : 1 ≤ P) (j : Nat) (hj : (j : Int) < P) :
    (worker_intervals N P)[j]? =
      some (2 + chunk_offset ((N - 1) / P) ((N - 1) % P) j,
            1 + chunk_offset ((N - 1) / P) ((N - 1) % P) (j + 1)) := by
  unfold worker_intervals
  simp only
  rw [Int.tdiv_eq_ediv (by omega) (by omega), Int.tmod_eq_emod (by omega) (by omega)]
  rw [assign_intervals_get _ _ _ _ _ j (by omega)]
  have h0 : chunk_offset ((N - 1) / P) ((N - 1) % P) 0 = 0 := by
    unfold chunk_offset
    have := Int.emod_nonneg (N - 1) (show P ≠ 0 by omega)
    split_ifs <;> omega
  rw [h0]
  simp only [zero_add, sub_zero]
  congr 2
  ring

theorem worker_intervals_length (N P : Int) : (worker_intervals N P).length = P.toNat := by
  unfold worker_intervals
  simp only
  rw [assign_intervals_length]

theorem chunk_offset_zero (base extra : Int) (he : 0 ≤ extra) : chunk_offset base extra 0 = 0 := by
  unfold chunk_offset
  split_ifs <;> omega

theorem chunk_offset_mono (base extra : Int) (hb : 0 ≤ base) (i j : Nat) (hij : i ≤ j) :
    chunk_offset base extra i ≤ chunk_offset base extra j := by
  induction j, hij using Nat.le_induction with
  | base => exact le_refl _
  | succ j _ ih =>
    push_cast
    rw [chunk_offset_succ]
    split_ifs <;> omega

theorem chunk_offset_total (N P : Int) (hP : 1 ≤ P) :
    chunk_offset ((N - 1) / P) ((N - 1) % P) P = N - 1 := by
  unfold chunk_offset
  have h1 := Int.emod_lt_of_pos (N - 1) (show 0 < P by omega)
  rw [if_neg (by omega)]
  have h2 := Int.ediv_add_emod (N - 1) P
  linarith

theorem locate_step (g : Nat → Int) (y : Int) :
    ∀ n : Nat, g 0 ≤ y → y < g n → ∃ j, j < n ∧ g j ≤ y ∧ y < g (j + 1) := by
  intro n
  induction n with
  | zero => intro h0 h1; omega
  | succ n ih =>
    intro h0 h1
    by_cases h : y < g n
    · obtain ⟨j, hj, hj1, hj2⟩ := ih h0 h
      exact ⟨j, by omega, hj1, hj2⟩
    · exact ⟨n, by omega, by omega, h1⟩

theorem worker_intervals_get_inv (N P : Int) (hN : 2 ≤ N) (hP : 1 ≤ P) (i : Nat) (a b : Int)
    (h : (worker_intervals N P)[i]? = some (a, b)) :
    (i : Int) < P ∧ a = 2 + chunk_offset ((N - 1) / P) ((N - 1) % P) i ∧
      b = 1 + chunk_offset ((N - 1) / P) ((N - 1) % P) (i + 1) := by
  have hlt : i < (worker_intervals N P).length := by
    by_contra hc
    rw [List.getElem?_eq_none (by omega)] at h
    exact Option.noConfusion h
  rw [worker_intervals_length] at hlt
  have hi : (i : Int) < P := by omega
  rw [worker_intervals_get N P hN hP i hi] at h
  simp only [Option.some.injEq, Prod.mk.injEq] at h
  exact ⟨hi, h.1.symm, h.2.symm⟩

/-- Every integer of `[2, N]` lies in the interval of some worker. -/
theorem worker_intervals_cover (N P : Int) (hN : 2 ≤ N) (hP : 1 ≤ P) (x : Int)
    (hx2 : 2 ≤ x) (hxN : x ≤ N) :
    ∃ (i : Nat) (a b : Int), (worker_intervals N P)[i]? = some (a, b) ∧ a ≤ x ∧ x ≤ b := by
  have he : 0 ≤ (N - 1) % P := Int.emod_nonneg _ (by omega)
  have h0 : chunk_offset ((N - 1) / P) ((N - 1) % P) ((0 : Nat) : Int) ≤ x - 2 := by
    simp only [Nat.cast_zero, chunk_offset_zero _ _ he]
    omega
  have h1 : x - 2 < chunk_offset ((N - 1) / P) ((N - 1) % P) ((P.toNat : Nat) : Int) := by
    have e : ((P.toNat : Nat) : Int) = P := by omega
    simp only [e, chunk_offset_total N P hP]
    omega
  obtain ⟨j, hj, hj1, hj2⟩ := locate_step
    (fun j : Nat => chunk_offset ((N - 1) / P) ((N - 1) % P) (j : Int)) (x - 2) P.toNat h0 h1
  push_cast at hj2
  exact ⟨j, _, _, worker_intervals_get N P hN hP j (by omega), by omega, by omega⟩

/-- Workers with different indices never share a number. -/
theorem worker_intervals_disjoint (N P : Int) (hN : 2 ≤ N) (hP : 1 ≤ P) (i j : Nat)
    (a b c d x : Int) (hij : i ≠ j) (h1 : (worker_intervals N P)[i]? = some (a, b))
    (h2 : (worker_intervals N P)[j]? = some (c, d)) : ¬ (a ≤ x ∧ x ≤ b ∧ c ≤ x ∧ x ≤ d) := by
  have hb : 0 ≤ (N - 1) / P := Int.ediv_nonneg (by omega) (by omega)
  have hmono := chunk_offset_mono ((N - 1) / P) ((N - 1) % P) hb
  obtain ⟨_, ha', hb'⟩ := worker_intervals_get_inv N P hN hP i a b h1
  obtain ⟨_, hc', hd'⟩ := worker_intervals_get_inv N P hN hP j c d h2
  intro hx
  rcases Nat.lt_or_gt_of_ne hij with h | h
  · have := hmono (i + 1) j (by omega)
    push_cast at this
    omega
  · have := hmono (j + 1) i (by omega)
    push_cast at this
    omega

/-- No value of the assignment loop leaves `[1, N + 1]`: neither `current_start`, nor
`current_start + chunk_size` (which is `current_end + 1`), nor `current_end`.  For
`N < INT_MAX` the 32-bit arithmetic of the source therefore never overflows. -/
theorem worker_intervals_fit_int (N P : Int) (hN : 2 ≤ N) (hP : 1 ≤ P) (i : Nat) (a b : Int)
    (h : (worker_intervals N P)[i]? = some (a, b)) :
    2 ≤ a ∧ a ≤ N + 1 ∧ 1 ≤ b ∧ b + 1 ≤ N + 1 := by
  have hb : 0 ≤ (N - 1) / P := Int.ediv_nonneg (by omega) (by omega)
  have he : 0 ≤ (N - 1) % P := Int.emod_nonneg _ (by omega)
  obtain ⟨hiP, ha, hb'⟩ := worker_intervals_get_inv N P hN hP i a b h
  have h0 := chunk_offset_mono _ ((N - 1) % P) hb 0 i (by omega)
  rw [Nat.cast_zero, chunk_offset_zero _ _ he] at h0
  have h1 := chunk_offset_mono _ ((N - 1) % P) hb i (i + 1) (by omega)
  have h2 := chunk_offset_mono _ ((N - 1) % P) hb (i + 1) P.toNat (by omega)
  have e : ((P.toNat : Nat) : Int) = P := by omega
  rw [e, chunk_offset_total N P hP] at h2
  push_cast at h1 h2
  omega

/-- The number of integers worker `i` is given. -/
theorem worker_intervals_size_get (N P : Int) (hN : 2 ≤ N) (hP : 1 ≤ P) (i : Nat) (a b : Int)
    (h : (worker_intervals N P)[i]? = some (a, b)) :
    b - a + 1 = (N - 1) / P + (if (i : Int) < (N - 1) % P then 1 else 0) := by
  obtain ⟨_, ha, hb⟩ := worker_intervals_get_inv N P hN hP i a b h
  rw [chunk_offset_succ] at hb
  rw [ha, hb]
  ring

theorem assign_intervals_size_sum (base extra : Int) :
    ∀ (k : Nat) (i cs : Int),
      ((assign_intervals base extra k i cs).map fun w => w.2 - w.1 + 1).sum =
        chunk_offset base extra (i + k) - chunk_offset base extra i := by
  intro k
  induction k with
  | zero => intro i cs; simp [assign_intervals]
  | succ k ih =>
    intro i cs
    unfold assign_intervals
    simp only [List.map_cons, List.sum_cons]
    rw [ih, chunk_offset_succ base extra i]
    push_cast
    have e : i + 1 + (k : Int) = i + ((k : Int) + 1) := by ring
    rw [e]
    ring

/-! ## Aggregation -/

theorem collect_pipe_spec (read : Nat → Option Int) :
    ∀ (k i : Nat) (total : Int) (issued : List Nat), wrap64 total = total →
      collect_pipe read k i total issued =
        (wrap64 (total + ∑ j in Finset.range k, contribution read (i + j)),
          issued ++ List.range' i k) := by
  intro k
  induction k with
  | zero =>
    intro i total issued ht
    simp [collect_pipe, ht]
  | succ k ih =>
    intro i total issued ht
    unfold collect_pipe
    rw [Finset.sum_range_succ']
    have hl : issued ++ List.range' i (k + 1) = issued ++ [i] ++ List.range' (i + 1) k := by
      simp [List.range'_succ]
    have hs : ∑ j in Finset.range k, contribution read (i + (j + 1)) =
        ∑ j in Finset.range k, contribution read (i + 1 + j) := by
      apply Finset.sum_congr rfl
      intro j _
      rw [Nat.add_assoc, Nat.add_comm 1 j]
    rw [hs]
    simp only [Nat.add_zero]
    cases hr : read i with
    | none =>
      simp only
      rw [ih (i + 1) total _ ht, hl]
      simp only [contribution, hr, Option.getD_none, add_zero]
    | some v =>
      simp only
      rw [ih (i + 1) _ _ (wrap64_idem _), hl, wrap64_add_left]
      simp only [contribution, hr, Option.getD_some]
      congr 2
      ring

theorem collect_shm_spec (shared_results : Nat → Int) :
    ∀ (k i : Nat) (total : Int), wrap64 total = total →
      collect_shm shared_results k i total =
        wrap64 (total + ∑ j in Finset.range k, shared_results (i + j)) := by
  intro k
  induction k with
  | zero =>
    intro i total ht
    simp [collect_shm, ht]
  | succ k ih =>
    intro i total ht
    unfold collect_shm
    rw [Finset.sum_range_succ', ih (i + 1) _ (wrap64_idem _), wrap64_add_left]
    have hs : ∑ j in Finset.range k, shared_results (i + (j + 1)) =
        ∑ j in Finset.range k, shared_results (i + 1 + j) := by
      apply Finset.sum_congr rfl
      intro j _
      rw [Nat.add_assoc, Nat.add_comm 1 j]
    rw [hs]
    simp only [Nat.add_zero]
    congr 1
    ring

theorem sum_range_getElem (l : List Int) :
    ∑ j in Finset.range l.length, (l[j]?).getD 0 = l.sum := by
  induction l with
  | nil => simp
  | cons x xs ih =>
    rw [List.length_cons, Finset.sum_range_succ']
    simp only [List.getElem?_cons_succ, List.getElem?_cons_zero, Option.getD_some, List.sum_cons]
    rw [ih]
    ring

theorem sum_range_getD (l : List Int) :
    ∑ j in Finset.range l.length, l.getD j 0 = l.sum := by
  rw [← sum_range_getElem]
  apply Finset.sum_congr rfl
  intro j _
  rw [List.getD_eq_getElem?_getD]

/-! ## `run_concurrent` against `run_sequential` -/

theorem chunk_offset_mono_add (base extra : Int) (hb : 0 ≤ base) (i : Int) (k : Nat) :
    chunk_offset base extra i ≤ chunk_offset base extra (i + k) := by
  induction k with
  | zero => simp
  | succ k ih =>
    have e : i + ((k + 1 : Nat) : Int) = i + k + 1 := by push_cast; ring
    rw [e, chunk_offset_succ]
    split_ifs <;> omega

theorem assign_intervals_primes_sum (base extra : Int) (hb : 0 ≤ base) :
    ∀ (k : Nat) (i cs : Int),
      ((assign_intervals base extra k i cs).map fun w => (primes_in w.1 w.2 : Int)).sum =
        primes_in cs (cs + (chunk_offset base extra (i + k) - chunk_offset base extra i) - 1) := by
  intro k
  induction k with
  | zero =>
    intro i cs
    simp only [assign_intervals, List.map_nil, List.sum_nil, Nat.cast_zero, add_zero, sub_self]
    rw [primes_in_empty cs (cs - 1) (by omega)]
    rfl
  | succ k ih =>
    intro i cs
    unfold assign_intervals
    simp only [List.map_cons, List.sum_cons]
    rw [ih]
    have hm := chunk_offset_mono_add base extra hb (i + 1) k
    have hs := chunk_offset_succ base extra i
    have e : i + ((k + 1 : Nat) : Int) = i + 1 + k := by push_cast; ring
    rw [e]
    have hc : 0 ≤ base + (if i < extra then 1 else 0) := by split_ifs <;> omega
    rw [primes_in_split cs (cs + (base + if i < extra then 1 else 0) - 1)
      (cs + (chunk_offset base extra (i + 1 + k) - chunk_offset base extra i) - 1)
      (by omega) (by omega)]
    push_cast
    congr 3
    omega

theorem wait_all_map (f : Int × Int → Option Int) (g : Int × Int → Int) :
    ∀ l : List (Int × Int), (∀ w ∈ l, f w = some (g w)) → wait_all (l.map f) = some (l.map g) := by
  intro l
  induction l with
  | nil => intro _; rfl
  | cons x xs ih =>
    intro h
    rw [List.map_cons, h x (List.mem_cons_self _ _), wait_all,
      ih (fun w hw => h w (List.mem_cons_of_mem _ hw))]
    rfl

theorem wait_all_none (f : Int × Int → Option Int) :
    ∀ l : List (Int × Int), (∃ w ∈ l, f w = none) → wait_all (l.map f) = none := by
  intro l
  induction l with
  | nil => rintro ⟨w, hw, _⟩; exact absurd hw (List.not_mem_nil w)
  | cons x xs ih =>
    rintro ⟨w, hw, hf⟩
    rw [List.map_cons]
    rcases List.mem_cons.1 hw with h | h
    · subst h
      rw [hf, wait_all]
    · cases hx : f x with
      | none => rw [wait_all]
      | some v => rw [wait_all, ih ⟨w, h, hf⟩]; rfl

/-- When `end_` is at least `INT_MAX` the test `i <= end` never fails: the counting
loop exhausts any budget. -/
theorem count_loop_never_returns (end_ : Int) (he : 2147483647 ≤ end_) :
    ∀ (fuel : Nat) (i c : Int), i ≤ 2147483647 → count_loop fuel i end_ c = none := by
  intro fuel
  induction fuel with
  | zero => intro i c _; rfl
  | succ fuel ih =>
    intro i c hi
    unfold count_loop
    rw [if_pos (by omega)]
    cases is_prime_basic i with
    | none => rfl
    | some b => exact ih _ _ (wrap32_le_max _)

theorem primes_in_worker_sum (N P : Int) (hN : 2 ≤ N) (hP : 1 ≤ P) :
    ((worker_intervals N P).map fun w => (primes_in w.1 w.2 : Int)).sum = primes_in 2 N := by
  have hb : 0 ≤ (N - 1) / P := Int.ediv_nonneg (by omega) (by omega)
  have he : 0 ≤ (N - 1) % P := Int.emod_nonneg _ (by omega)
  unfold worker_intervals
  simp only
  rw [Int.tdiv_eq_ediv (by omega) (by omega), Int.tmod_eq_emod (by omega) (by omega),
    assign_intervals_primes_sum _ _ hb, chunk_offset_zero _ _ he]
  have e : (0 : Int) + ((P.toNat : Nat) : Int) = P := by omega
  rw [e, chunk_offset_total N P hP]
  congr 2
  ring

/-- The value both aggregation loops arrive at when every worker returns. -/
theorem run_concurrent_returns (N P : Int) (ipc_type : String) (hN : 2 ≤ N)
    (hN' : N < 2147483647) (hP : 1 ≤ P) (hipc : ipc_type = "pipe" ∨ ipc_type = "shm") :
    run_concurrent N P ipc_type = some (primes_in 2 N : Int) := by
  have hb : 0 ≤ (N - 1) / P := Int.ediv_nonneg (by omega) (by omega)
  have hw : wait_all ((worker_intervals N P).map fun w => count_primes_interval w.1 w.2) =
      some ((worker_intervals N P).map fun w => (primes_in w.1 w.2 : Int)) := by
    apply wait_all_map
    rintro ⟨a, b⟩ hmem
    obtain ⟨i, hi⟩ := List.mem_iff_getElem?.1 hmem
    obtain ⟨hiP, ha, hb'⟩ := worker_intervals_get_inv N P hN hP i a b hi
    have h0 := chunk_offset_mono _ ((N - 1) % P) hb 0 i (by omega)
    rw [Nat.cast_zero, chunk_offset_zero _ _ (Int.emod_nonneg _ (by omega))] at h0
    have h1 := chunk_offset_mono _ ((N - 1) % P) hb (i + 1) P.toNat (by omega)
    have e : ((P.toNat : Nat) : Int) = P := by omega
    rw [e, chunk_offset_total N P hP] at h1
    push_cast at h1
    exact count_primes_interval_spec a b (by omega) (by omega)
  have hlen : ((worker_intervals N P).map fun w => (primes_in w.1 w.2 : Int)).length =
      P.toNat := by
    rw [List.length_map, worker_intervals_length]
  have hsum := primes_in_worker_sum N P hN hP
  have hle := primes_in_le 2 N
  have hrange : wrap64 (primes_in 2 N : Int) = primes_in 2 N :=
    wrap64_of_range _ (by omega) (by omega)
  unfold run_concurrent
  rcases hipc with h | h
  · rw [if_pos h, hw]
    simp only
    rw [collect_pipe_spec _ _ _ _ _ (by decide)]
    simp only [contribution, zero_add]
    rw [← hlen, sum_range_getElem, hsum, hrange]
  · have hne : ¬ ipc_type = "pipe" := by rw [h]; decide
    rw [if_neg hne, if_pos h, hw]
    simp only
    rw [collect_shm_spec _ _ _ _ (by decide)]
    simp only [zero_add]
    rw [← hlen, sum_range_getD, hsum, hrange]

/-! ## `main` and the call it makes -/

theorem main_seq_accepted (env : Resources) (argv : List String) (N : Int)
    (h3 : ¬ argv.length < 3) (hN : stoi (argv.getD 2 "") = some N) (hN2 : ¬ N < 2)
    (hseq : argv.getD 1 "" = "seq") :
    main env argv = ⟨status_after (run_sequential_outcome N), some (Call.seq N)⟩ := by
  have hpar : ¬ argv.getD 1 "" = "par" := by rw [hseq]; decide
  unfold main
  rw [if_neg h3, hN]
  simp only
  rw [if_neg hN2, if_neg hpar, if_neg (not_not.2 hseq)]

theorem main_par_accepted (env : Resources) (argv : List String) (N P : Int)
    (h3 : ¬ argv.length < 3) (hN : stoi (argv.getD 2 "") = some N) (hN2 : ¬ N < 2)
    (hpar : argv.getD 1 "" = "par") (h5 : ¬ argv.length < 5)
    (hP : stoi (argv.getD 3 "") = some P) (hP1 : ¬ P < 1)
    (hipc : ¬ (argv.getD 4 "" ≠ "pipe" ∧ argv.getD 4 "" ≠ "shm")) :
    main env argv =
      ⟨status_after (run_concurrent_outcome env N P (argv.getD 4 "")),
        some (Call.par N P (argv.getD 4 ""))⟩ := by
  unfold main
  rw [if_neg h3, hN]
  simp only
  rw [if_neg hN2, if_pos hpar, if_neg h5, hP]
  simp only
  rw [if_neg hP1, if_neg hipc]

theorem run_sequential_status_iff (N : Int) :
    status_after (run_sequential_outcome N) = some 0 ↔ ∃ total, run_sequential N = some total := by
  unfold run_sequential_outcome
  cases run_sequential N with
  | none => simp [status_after]
  | some v => simp [status_after]

theorem run_sequential_status (N : Int) (hlt : N < 2147483647) :
    status_after (run_sequential_outcome N) = some 0 := by
  rw [run_sequential_status_iff]
  exact ⟨_, count_primes_interval_spec 2 N (by omega) hlt⟩

theorem run_concurrent_outcome_denied (env : Resources) (N P : Int) (ipc_type : String)
    (hipc : ipc_type = "pipe" ∨ ipc_type = "shm")
    (h : resources_granted env P ipc_type = false) :
    run_concurrent_outcome env N P ipc_type = Outcome.exited 1 := by
  unfold resources_granted at h
  unfold run_concurrent_outcome
  rcases hipc with hp | hs
  · rw [if_pos hp] at h
    by_cases hpipe : (List.range P.toNat).all env.pipe_ok = false
    · rw [if_pos ⟨hp, hpipe⟩]
    · have hne : ¬ ipc_type = "shm" := by rw [hp]; decide
      rw [if_neg (fun hc => hpipe hc.2), if_neg (fun hc => hne hc.1),
        if_neg (fun hc => hc.1 hp)]
      have hfork : (List.range P.toNat).all env.fork_ok = false := by
        cases hq : (List.range P.toNat).all env.pipe_ok with
        | false => exact absurd hq hpipe
        | true => rw [hq] at h; simpa using h
      rw [if_pos hfork]
  · have hne : ¬ ipc_type = "pipe" := by rw [hs]; decide
    rw [if_neg hne] at h
    rw [if_neg (fun hc => hne hc.1)]
    by_cases hmap : env.mmap_ok = false
    · rw [if_pos ⟨hs, hmap⟩]
    · rw [if_neg (fun hc => hmap hc.2), if_neg (fun hc => hc.2 hs)]
      have hfork : (List.range P.toNat).all env.fork_ok = false := by
        cases hq : env.mmap_ok with
        | false => exact absurd hq hmap
        | true => rw [hq] at h; simpa using h
      rw [if_pos hfork]

theorem run_concurrent_outcome_granted (env : Resources) (N P : Int) (ipc_type : String)
    (hipc : ipc_type = "pipe" ∨ ipc_type = "shm")
    (h : resources_granted env P ipc_type = true) :
    run_concurrent_outcome env N P ipc_type =
      match run_concurrent N P ipc_type with
      | some total => Outcome.returned total
      | none => Outcome.never_returns := by
  unfold resources_granted at h
  rw [Bool.and_eq_true] at h
  have hfork : ¬ (List.range P.toNat).all env.fork_ok = false := by rw [h.2]; decide
  unfold run_concurrent_outcome
  rcases hipc with hp | hs
  · have h1 := h.1
    rw [if_pos hp] at h1
    have hne : ¬ ipc_type = "shm" := by rw [hp]; decide
    rw [if_neg (fun hc => by rw [h1] at hc; exact absurd hc.2 (by decide)),
      if_neg (fun hc => hne hc.1), if_neg (fun hc => hc.1 hp), if_neg hfork]
  · have hne : ¬ ipc_type = "pipe" := by rw [hs]; decide
    have h1 := h.1
    rw [if_neg hne] at h1
    rw [if_neg (fun hc => hne hc.1),
      if_neg (fun hc => by rw [h1] at hc; exact absurd hc.2 (by decide)),
      if_neg (fun hc => hc.2 hs), if_neg hfork]

theorem run_concurrent_status_iff (N P : Int) (ipc_type : String) :
    status_after (match run_concurrent N P ipc_type with
      | some total => Outcome.returned total
      | none => Outcome.never_returns) = some 0 ↔
      ∃ total, run_concurrent N P ipc_type = some total := by
  cases run_concurrent N P ipc_type with
  | none => simp [status_after]
  | some v => simp [status_after]

theorem run_sequential_status_none (N : Int) (h : run_sequential N = none) :
    status_after (run_sequential_outcome N) = none := by
  unfold run_sequential_outcome
  rw [h]
  rfl

/-- The run `primecount seq 2147483647`: `main` makes the call and it never returns. -/
theorem main_seq_int_max (env : Resources) :
    main env ["primecount", "seq", "2147483647"] = ⟨none, some (Call.seq 2147483647)⟩ :=
  (main_seq_accepted env ["primecount", "seq", "2147483647"] 2147483647 (by decide) (by decide)
    (by decide) (by decide)).trans
    (congrArg (fun c => MainResult.mk c (some (Call.seq 2147483647)))
      (run_sequential_status_none 2147483647
        (count_loop_never_returns 2147483647 (le_refl _) count_fuel 2 0 (by decide))))

/-! ## The claims -/

/-- C1: for `N ≥ 2`, `P ≥ 1` and either transport, the total `run_concurrent`
aggregates from its workers is what `run_sequential` returns, which for `N < INT_MAX`
is the number of primes found in `[2, N]`.  At `N = INT_MAX` neither of the two
returns: the counter of `count_primes_interval` cannot pass `end`. -/
theorem run_concurrent_eq_run_sequential (N P : Int) (ipc_type : String) (hN : 2 ≤ N)
    (hP : 1 ≤ P) (hipc : ipc_type = "pipe" ∨ ipc_type = "shm") :
    run_concurrent N P ipc_type = run_sequential N ∧
    (N < INT_MAX → run_sequential N = some (primes_in 2 N : Int)) := by
  by_cases hlt : N < 2147483647
  · rw [run_concurrent_returns N P ipc_type hN hlt hP hipc]
    unfold run_sequential
    rw [count_primes_interval_spec 2 N (by omega) hlt]
    exact ⟨rfl, fun _ => rfl⟩
  · have hseq : run_sequential N = none :=
      count_loop_never_returns N (by omega) count_fuel 2 0 (by omega)
    have hcon : run_concurrent N P ipc_type = none := by
      obtain ⟨i, a, b, hget, ha, hb⟩ :=
        worker_intervals_cover N P hN hP 2147483647 (by omega) (by omega)
      have hnone : count_primes_interval a b = none :=
        count_loop_never_returns b hb count_fuel a 0 ha
      have hw := wait_all_none (fun w => count_primes_interval w.1 w.2) (worker_intervals N P)
        ⟨(a, b), List.mem_iff_getElem?.2 ⟨i, hget⟩, hnone⟩
      unfold run_concurrent
      rcases hipc with h | h
      · rw [if_pos h, hw]
      · have hne : ¬ ipc_type = "pipe" := by rw [h]; decide
        rw [if_neg hne, if_pos h, hw]
    refine ⟨hcon.trans hseq.symm, fun h => ?_⟩
    unfold INT_MAX at h
    exact absurd h hlt

theorem run_concurrent_eq_run_sequential_witness :
    run_concurrent 20 4 "pipe" = some 8 ∧ run_concurrent 20 4 "shm" = some 8 ∧
    run_sequential 20 = some 8 :=
  ⟨(run_concurrent_eq_run_sequential 20 4 "pipe" (by decide) (by decide)
      (Or.inl rfl)).1.trans (by decide),
    (run_concurrent_eq_run_sequential 20 4 "shm" (by decide) (by decide)
      (Or.inr rfl)).1.trans (by decide),
    by decide⟩

/-- C2: for `N ≥ 2` and `P ≥ 1` the intervals assigned by the loop of `run_concurrent`
are `P` in number, contiguous (`end_i + 1 = start_{i+1}`), pairwise disjoint, the
first starts at `2`, the last ends at `N`, and every integer of `[2, N]` lies in
exactly one of them. -/
theorem worker_intervals_partition (N P : Int) (hN : 2 ≤ N) (hP : 1 ≤ P) :
    (worker_intervals N P).length = P.toNat ∧
    (∀ (i : Nat) (a b c d : Int), (worker_intervals N P)[i]? = some (a, b) →
      (worker_intervals N P)[i + 1]? = some (c, d) → b + 1 = c) ∧
    (∀ (i j : Nat) (a b c d x : Int), i ≠ j → (worker_intervals N P)[i]? = some (a, b) →
      (worker_intervals N P)[j]? = some (c, d) → ¬ (a ≤ x ∧ x ≤ b ∧ c ≤ x ∧ x ≤ d)) ∧
    (∃ b, (worker_intervals N P)[0]? = some (2, b)) ∧
    (∃ a, (worker_intervals N P)[P.toNat - 1]? = some (a, N)) ∧
    (∀ x : Int, 2 ≤ x → x ≤ N →
      ∃! i : Nat, ∃ a b, (worker_intervals N P)[i]? = some (a, b) ∧ a ≤ x ∧ x ≤ b) := by
  have he : 0 ≤ (N - 1) % P := Int.emod_nonneg _ (by omega)
  refine ⟨worker_intervals_length N P, ?_,
    fun i j a b c d x hij h1 h2 => worker_intervals_disjoint N P hN hP i j a b c d x hij h1 h2,
    ?_, ?_, ?_⟩
  · intro i a b c d h1 h2
    obtain ⟨_, _, hb'⟩ := worker_intervals_get_inv N P hN hP i a b h1
    obtain ⟨_, hc', _⟩ := worker_intervals_get_inv N P hN hP (i + 1) c d h2
    push_cast at hc'
    omega
  · refine ⟨1 + chunk_offset ((N - 1) / P) ((N - 1) % P) 1, ?_⟩
    rw [worker_intervals_get N P hN hP 0 (by omega)]
    simp only [Nat.cast_zero, chunk_offset_zero _ _ he, add_zero, zero_add]
  · refine ⟨2 + chunk_offset ((N - 1) / P) ((N - 1) % P) ((P.toNat - 1 : Nat) : Int), ?_⟩
    rw [worker_intervals_get N P hN hP (P.toNat - 1) (by omega)]
    have e : ((P.toNat - 1 : Nat) : Int) + 1 = P := by omega
    rw [e, chunk_offset_total N P hP]
    congr 2
    ring
  · intro x hx2 hxN
    obtain ⟨j, a, b, hget, ha, hb⟩ := worker_intervals_cover N P hN hP x hx2 hxN
    refine ⟨j, ⟨a, b, hget, ha, hb⟩, ?_⟩
    rintro k ⟨c, d, hk, hkc, hkd⟩
    by_contra hne
    exact worker_intervals_disjoint N P hN hP k j c d a b x hne hk hget ⟨hkc, hkd, ha, hb⟩

theorem worker_intervals_partition_witness :
    worker_intervals 20 4 = [(2, 6), (7, 11), (12, 16), (17, 20)] ∧
    (worker_intervals 20 4).length = 4 ∧
    (∃ b, (worker_intervals 20 4)[0]? = some (2, b)) ∧
    (∃ a, (worker_intervals 20 4)[3]? = some (a, 20)) :=
  ⟨by decide, (worker_intervals_partition 20 4 (by decide) (by decide)).1,
    (worker_intervals_partition 20 4 (by decide) (by decide)).2.2.2.1,
    (worker_intervals_partition 20 4 (by decide) (by decide)).2.2.2.2.1⟩

/-- C3: for `0 ≤ n ≤ 10000`, `is_prime_basic n` returns `true` exactly when `n` is
prime; in particular it is `false` at 0, 1 and 4 and `true` at 2 and 97. -/
theorem is_prime_basic_upto_10000 :
    (∀ n : Int, 0 ≤ n → n ≤ 10000 → is_prime_basic n = some (decide (Nat.Prime n.toNat))) ∧
    is_prime_basic 0 = some false ∧ is_prime_basic 1 = some false ∧
    is_prime_basic 2 = some true ∧ is_prime_basic 4 = some false ∧
    is_prime_basic 97 = some true := by
  refine ⟨?_, by decide, by decide, by decide, by decide, by decide⟩
  intro n h0 h1
  have h := is_prime_basic_small n.toNat (by omega)
  rwa [Int.toNat_of_nonneg h0] at h

/-- C4: for an `int` `start` and `end_ < INT_MAX`, `count_primes_interval start end_`
returns the number of integers `i` with `start ≤ i ≤ end_` on which `is_prime_basic`
returns `true`; on an empty interval it returns 0. -/
theorem count_primes_interval_counts (start end_ : Int) (hs : INT_MIN ≤ start)
    (he : end_ < INT_MAX) :
    count_primes_interval start end_ = some (primes_in start end_ : Int) ∧
    (end_ < start → count_primes_interval start end_ = some 0) := by
  unfold INT_MIN at hs
  unfold INT_MAX at he
  exact ⟨count_primes_interval_spec start end_ hs he, count_primes_interval_empty start end_⟩

theorem count_primes_interval_counts_witness :
    count_primes_interval 2 20 = some (primes_in 2 20 : Int) ∧
    count_primes_interval 7 6 = some 0 :=
  ⟨(count_primes_interval_counts 2 20 (by decide) (by decide)).1,
   (count_primes_interval_counts 7 6 (by decide) (by decide)).2 (by decide)⟩

/-- C5: with `base = (N-1) / P` and `extra = (N-1) % P`, worker `i` is assigned
`base + 1` numbers when `i < extra` and `base` numbers otherwise; the sizes add up
to `N - 1`, any two differ by at most one, and they never grow with the worker
index. -/
theorem worker_intervals_sizes (N P : Int) (hN : 2 ≤ N) (hP : 1 ≤ P) :
    (∀ (i : Nat) (a b : Int), (worker_intervals N P)[i]? = some (a, b) →
      b - a + 1 = (N - 1) / P + (if (i : Int) < (N - 1) % P then 1 else 0)) ∧
    ((worker_intervals N P).map fun w => w.2 - w.1 + 1).sum = N - 1 ∧
    (∀ (i j : Nat) (a b c d : Int), (worker_intervals N P)[i]? = some (a, b) →
      (worker_intervals N P)[j]? = some (c, d) → |(b - a + 1) - (d - c + 1)| ≤ 1) ∧
    (∀ (i j : Nat) (a b c d : Int), i ≤ j → (worker_intervals N P)[i]? = some (a, b) →
      (worker_intervals N P)[j]? = some (c, d) → d - c + 1 ≤ b - a + 1) := by
  have he : 0 ≤ (N - 1) % P := Int.emod_nonneg _ (by omega)
  have hsize := worker_intervals_size_get N P hN hP
  refine ⟨hsize, ?_, ?_, ?_⟩
  · unfold worker_intervals
    simp only
    rw [assign_intervals_size_sum, Int.tdiv_eq_ediv (by omega) (by omega),
      Int.tmod_eq_emod (by omega) (by omega), chunk_offset_zero _ _ he]
    have e : (0 : Int) + ((P.toNat : Nat) : Int) = P := by omega
    rw [e, chunk_offset_total N P hP]
    ring
  · intro i j a b c d h1 h2
    rw [hsize i a b h1, hsize j c d h2, abs_le]
    split_ifs <;> constructor <;> omega
  · intro i j a b c d hij h1 h2
    rw [hsize i a b h1, hsize j c d h2]
    have hij' : (i : Int) ≤ (j : Int) := by exact_mod_cast hij
    split_ifs <;> omega

theorem worker_intervals_sizes_witness :
    ((worker_intervals 20 4).map fun w => w.2 - w.1 + 1) = [5, 5, 5, 4] ∧
    ((worker_intervals 20 4).map fun w => w.2 - w.1 + 1).sum = 20 - 1 :=
  ⟨by decide, (worker_intervals_sizes 20 4 (by decide) (by decide)).2.1⟩

/-- C6, as the code has it: `main` returns 1 and calls neither `run_sequential` nor
`run_concurrent` when fewer than 3 arguments are given, the parsed `N` is below 2,
the mode is neither `seq` nor `par`, or the mode is `par` and fewer than 5 arguments
are given, the parsed `P` is below 1 or the transport is neither `pipe` nor `shm`.
In every other case where `N` (and `P` in mode `par`) parse, it makes the call; the
status is 0 exactly when the call returns, which it does for `N < INT_MAX` once the
resources are granted, and it is 1 when `run_concurrent` is refused a pipe, the
mapping or a process. -/
theorem main_validation (env : Resources) (argv : List String) :
    ((argv.length < 3 ∨
      (∃ N, stoi (argv.getD 2 "") = some N ∧ N < 2) ∨
      (argv.getD 1 "" ≠ "seq" ∧ argv.getD 1 "" ≠ "par") ∨
      (argv.getD 1 "" = "par" ∧
        (argv.length < 5 ∨ (∃ P, stoi (argv.getD 3 "") = some P ∧ P < 1) ∨
          (argv.getD 4 "" ≠ "pipe" ∧ argv.getD 4 "" ≠ "shm")))) →
      main env argv = ⟨some 1, none⟩) ∧
    (¬ (argv.length < 3 ∨
      (∃ N, stoi (argv.getD 2 "") = some N ∧ N < 2) ∨
      (argv.getD 1 "" ≠ "seq" ∧ argv.getD 1 "" ≠ "par") ∨
      (argv.getD 1 "" = "par" ∧
        (argv.length < 5 ∨ (∃ P, stoi (argv.getD 3 "") = some P ∧ P < 1) ∨
          (argv.getD 4 "" ≠ "pipe" ∧ argv.getD 4 "" ≠ "shm")))) →
      ∀ N, stoi (argv.getD 2 "") = some N →
        (argv.getD 1 "" = "seq" →
          (main env argv).call = some (Call.seq N) ∧
          ((main env argv).exit_code = some 0 ↔ ∃ total, run_sequential N = some total) ∧
          (N < INT_MAX → (main env argv).exit_code = some 0)) ∧
        (argv.getD 1 "" = "par" → ∀ P, stoi (argv.getD 3 "") = some P →
          (main env argv).call = some (Call.par N P (argv.getD 4 "")) ∧
          (resources_granted env P (argv.getD 4 "") = false →
            (main env argv).exit_code = some 1) ∧
          (resources_granted env P (argv.getD 4 "") = true →
            ((main env argv).exit_code = some 0 ↔
              ∃ total, run_concurrent N P (argv.getD 4 "") = some total) ∧
            (N < INT_MAX → (main env argv).exit_code = some 0)))) := by
  constructor
  · intro h
    unfold main
    by_cases h3 : argv.length < 3
    · rw [if_pos h3]
    · rw [if_neg h3]
      cases hN : stoi (argv.getD 2 "") with
      | none => rfl
      | some N =>
        simp only
        by_cases hN2 : N < 2
        · rw [if_pos hN2]
        · rw [if_neg hN2]
          by_cases hpar : argv.getD 1 "" = "par"
          · rw [if_pos hpar]
            by_cases h5 : argv.length < 5
            · rw [if_pos h5]
            · rw [if_neg h5]
              cases hP : stoi (argv.getD 3 "") with
              | none => rfl
              | some P =>
                simp only
                by_cases hP1 : P < 1
                · rw [if_pos hP1]
                · rw [if_neg hP1]
                  by_cases hipc : argv.getD 4 "" ≠ "pipe" ∧ argv.getD 4 "" ≠ "shm"
                  · rw [if_pos hipc]
                  · exfalso
                    rcases h with h | ⟨N', hN', hlt⟩ | ⟨_, hnp⟩ | ⟨_, h | ⟨P', hP', hlt⟩ | h⟩
                    · exact h3 h
                    · rw [hN] at hN'
                      cases hN'
                      exact hN2 hlt
                    · exact hnp hpar
                    · exact h5 h
                    · rw [hP] at hP'
                      cases hP'
                      exact hP1 hlt
                    · exact hipc h
          · rw [if_neg hpar]
            by_cases hseq : argv.getD 1 "" ≠ "seq"
            · rw [if_pos hseq]
            · exfalso
              rcases h with h | ⟨N', hN', hlt⟩ | ⟨hns, _⟩ | ⟨hp, _⟩
              · exact h3 h
              · rw [hN] at hN'
                cases hN'
                exact hN2 hlt
              · exact hseq hns
              · exact hpar hp
  · intro h N hN
    have h3 : ¬ argv.length < 3 := fun hc => h (Or.inl hc)
    have hN2 : ¬ N < 2 := fun hc => h (Or.inr (Or.inl ⟨N, hN, hc⟩))
    constructor
    · intro hseq
      rw [main_seq_accepted env argv N h3 hN hN2 hseq]
      refine ⟨rfl, run_sequential_status_iff N, fun hlt => ?_⟩
      unfold INT_MAX at hlt
      exact run_sequential_status N hlt
    · intro hpar P hP
      have h5 : ¬ argv.length < 5 := fun hc => h (Or.inr (Or.inr (Or.inr ⟨hpar, Or.inl hc⟩)))
      have hP1 : ¬ P < 1 := fun hc =>
        h (Or.inr (Or.inr (Or.inr ⟨hpar, Or.inr (Or.inl ⟨P, hP, hc⟩)⟩)))
      have hipc : ¬ (argv.getD 4 "" ≠ "pipe" ∧ argv.getD 4 "" ≠ "shm") := fun hc =>
        h (Or.inr (Or.inr (Or.inr ⟨hpar, Or.inr (Or.inr hc)⟩)))
      have hipc' : argv.getD 4 "" = "pipe" ∨ argv.getD 4 "" = "shm" := by
        by_cases hp : argv.getD 4 "" = "pipe"
        · exact Or.inl hp
        · by_cases hs : argv.getD 4 "" = "shm"
          · exact Or.inr hs
          · exact absurd ⟨hp, hs⟩ hipc
      rw [main_par_accepted env argv N P h3 hN hN2 hpar h5 hP hP1 hipc]
      refine ⟨rfl, fun hden => ?_, fun hgr => ⟨?_, fun hlt => ?_⟩⟩
      · simp only
        rw [run_concurrent_outcome_denied env N P _ hipc' hden]
        rfl
      · simp only
        rw [run_concurrent_outcome_granted env N P _ hipc' hgr]
        exact run_concurrent_status_iff N P _
      · simp only
        rw [run_concurrent_outcome_granted env N P _ hipc' hgr]
        unfold INT_MAX at hlt
        rw [run_concurrent_returns N P _ (by omega) hlt (by omega) hipc']
        rfl

/-- C6 fails as stated in its accepting half.  With `par 20 4 pipe` nothing of the
validation objects, yet when the system grants only two pipes `run_concurrent` ends
the process with status 1 after `main` has called it; and with `seq 2147483647` the
call is made and never returns, so no status 0 is returned. -/
theorem main_accepted_without_status_zero :
    stoi "20" = some 20 ∧ stoi "4" = some 4 ∧
    main ⟨fun i => decide (i < 2), true, fun _ => true⟩ ["primecount", "par", "20", "4", "pipe"] =
      ⟨some 1, some (Call.par 20 4 "pipe")⟩ ∧
    main all_granted ["primecount", "par", "20", "4", "pipe"] =
      ⟨some 0, some (Call.par 20 4 "pipe")⟩ ∧
    (main all_granted ["primecount", "seq", "2147483647"]).exit_code = none := by
  refine ⟨by decide, by decide, by decide, by decide, ?_⟩
  rw [main_seq_int_max all_granted]

/-- C7, as the code has it: `main` returns 1 and makes no call whenever `std::stoi`
rejects the `N` argument, or the `P` argument in mode `par`. -/
theorem main_rejects_unparsed (env : Resources) (argv : List String)
    (h : stoi (argv.getD 2 "") = none ∨
      (argv.getD 1 "" = "par" ∧ stoi (argv.getD 3 "") = none)) :
    main env argv = ⟨some 1, none⟩ := by
  unfold main
  by_cases h3 : argv.length < 3
  · rw [if_pos h3]
  · rw [if_neg h3]
    cases hN : stoi (argv.getD 2 "") with
    | none => rfl
    | some N =>
      simp only
      by_cases hN2 : N < 2
      · rw [if_pos hN2]
      · rw [if_neg hN2]
        rcases h with h | ⟨hpar, hP⟩
        · rw [hN] at h
          exact Option.noConfusion h
        · rw [if_pos hpar]
          by_cases h5 : argv.length < 5
          · rw [if_pos h5]
          · rw [if_neg h5, hP]

/-- C7 fails as stated: `12abc` is not an integer literal, yet `stoi` reads `12`
from it and `main` runs the sequential count and returns 0. -/
theorem main_accepts_trailing_garbage :
    is_integer_literal "12abc" = false ∧
    main all_granted ["primecount", "seq", "12abc"] = ⟨some 0, some (Call.seq 12)⟩ := by
  decide

theorem main_rejects_unparsed_witness :
    stoi ("abc") = none ∧ main all_granted ["primecount", "seq", "abc"] = ⟨some 1, none⟩ :=
  ⟨by decide, main_rejects_unparsed all_granted ["primecount", "seq", "abc"] (Or.inl (by decide))⟩

/-- C8: the pipe aggregation issues exactly one `read` per channel, in order; the
total it returns is the 64-bit sum of the contributions, where a channel contributes
its payload when one was delivered and exactly `0` otherwise, and it is their exact
sum whenever that sum fits 64 bits; replacing the outcome of channel `j` changes the
sum by the difference of that channel's contributions only. -/
theorem collect_pipe_total (read : Nat → Option Int) (P : Nat) :
    (collect_pipe read P 0 0 []).2 = List.range P ∧
    (collect_pipe read P 0 0 []).1 = wrap64 (∑ i in Finset.range P, contribution read i) ∧
    (∀ i, read i = none → contribution read i = 0) ∧
    (∀ i v, read i = some v → contribution read i = v) ∧
    (-9223372036854775808 ≤ ∑ i in Finset.range P, contribution read i →
      ∑ i in Finset.range P, contribution read i ≤ 9223372036854775807 →
      (collect_pipe read P 0 0 []).1 = ∑ i in Finset.range P, contribution read i) ∧
    (∀ (j : Nat) (r : Option Int), j < P →
      (∀ i, i ≠ j → contribution (Function.update read j r) i = contribution read i) ∧
      (collect_pipe (Function.update read j r) P 0 0 []).1 =
        wrap64 ((collect_pipe read P 0 0 []).1 - contribution read j + r.getD 0)) := by
  have hspec : ∀ rd : Nat → Option Int, collect_pipe rd P 0 0 [] =
      (wrap64 (∑ i in Finset.range P, contribution rd i), List.range P) := by
    intro rd
    rw [collect_pipe_spec rd P 0 0 [] (by decide)]
    simp only [zero_add, List.nil_append, List.range_eq_range']
  refine ⟨by rw [hspec], by rw [hspec], ?_, ?_, ?_, ?_⟩
  · intro i h
    simp [contribution, h]
  · intro i v h
    simp [contribution, h]
  · intro h1 h2
    rw [hspec]
    exact wrap64_of_range _ h1 h2
  · intro j r hj
    constructor
    · intro i hij
      simp [contribution, Function.update_noteq hij]
    · rw [hspec, hspec]
      have hsum : ∑ i in Finset.range P, contribution (Function.update read j r) i =
          ∑ i in Finset.range P, contribution read i - contribution read j + r.getD 0 := by
        have hmem : j ∈ Finset.range P := Finset.mem_range.2 hj
        rw [← Finset.add_sum_erase _ _ hmem, ← Finset.add_sum_erase _ (contribution read) hmem]
        have herase : ∑ i in (Finset.range P).erase j, contribution (Function.update read j r) i =
            ∑ i in (Finset.range P).erase j, contribution read i := by
          apply Finset.sum_congr rfl
          intro i hi
          have hij : i ≠ j := Finset.ne_of_mem_erase hi
          simp [contribution, Function.update_noteq hij]
        rw [herase]
        simp only [contribution, Function.update_same]
        ring
      rw [hsum]
      generalize ∑ i in Finset.range P, contribution read i = s
      generalize contribution read j = c
      generalize r.getD 0 = d
      unfold wrap64
      omega

/-- C9: every assigned interval satisfies `start ≤ end + 1`; it is empty
(`start = end + 1`) exactly when `P > N - 1` and the worker index is at least
`N - 1`, so the empty intervals are those of the trailing `P - (N - 1)` workers;
`count_primes_interval` returns `0` on each of them. -/
theorem worker_intervals_empty (N P : Int) (hN : 2 ≤ N) (hP : 1 ≤ P) :
    (∀ (i : Nat) (a b : Int), (worker_intervals N P)[i]? = some (a, b) →
      a ≤ b + 1 ∧ (a = b + 1 ↔ (P > N - 1 ∧ (i : Int) ≥ N - 1)) ∧
      (a = b + 1 → count_primes_interval a b = some 0)) ∧
    (P > N - 1 →
      ((Finset.range P.toNat).filter fun i =>
        ((worker_intervals N P).getD i (0, 0)).1 =
          ((worker_intervals N P).getD i (0, 0)).2 + 1).card = (P - (N - 1)).toNat) := by
  have hb : 0 ≤ (N - 1) / P := Int.ediv_nonneg (by omega) (by omega)
  have he : 0 ≤ (N - 1) % P := Int.emod_nonneg _ (by omega)
  have hlt : (N - 1) % P < P := Int.emod_lt_of_pos _ (by omega)
  have hsz := worker_intervals_size_get N P hN hP
  have hiff : ∀ (i : Nat) (a b : Int), (worker_intervals N P)[i]? = some (a, b) →
      (a = b + 1 ↔ (P > N - 1 ∧ (i : Int) ≥ N - 1)) := by
    intro i a b h
    have hs := hsz i a b h
    by_cases hPN : N - 1 < P
    · have hbase : (N - 1) / P = 0 := Int.ediv_eq_zero_of_lt (by omega) hPN
      have hextra : (N - 1) % P = N - 1 := Int.emod_eq_of_lt (by omega) hPN
      rw [hbase, hextra] at hs
      split_ifs at hs <;> constructor <;> intro h' <;> omega
    · have hbase : 1 ≤ (N - 1) / P := by
        by_contra hc
        have h0 : (N - 1) / P = 0 := by omega
        have := Int.ediv_add_emod (N - 1) P
        rw [h0] at this
        omega
      split_ifs at hs <;> constructor <;> intro h' <;> omega
  constructor
  · intro i a b h
    have hs := hsz i a b h
    refine ⟨?_, hiff i a b h, ?_⟩
    · split_ifs at hs <;> omega
    · intro hab
      exact count_primes_interval_empty a b (by omega)
  · intro hPN
    have hset : ((Finset.range P.toNat).filter fun i =>
        ((worker_intervals N P).getD i (0, 0)).1 =
          ((worker_intervals N P).getD i (0, 0)).2 + 1) =
        Finset.Ico (N - 1).toNat P.toNat := by
      ext i
      simp only [Finset.mem_filter, Finset.mem_range, Finset.mem_Ico]
      constructor
      · rintro ⟨hi, hw⟩
        have hget := worker_intervals_get N P hN hP i (by omega)
        rw [List.getD_eq_getElem?_getD, hget] at hw
        simp only [Option.getD_some] at hw
        have := (hiff i _ _ hget).1 hw
        omega
      · rintro ⟨hi1, hi2⟩
        have hget := worker_intervals_get N P hN hP i (by omega)
        refine ⟨hi2, ?_⟩
        rw [List.getD_eq_getElem?_getD, hget]
        simp only [Option.getD_some]
        exact (hiff i _ _ hget).2 ⟨hPN, by omega⟩
    rw [hset, Nat.card_Ico]
    omega

theorem worker_intervals_empty_witness :
    worker_intervals 5 9 =
      [(2, 2), (3, 3), (4, 4), (5, 5), (6, 5), (6, 5), (6, 5), (6, 5), (6, 5)] ∧
    ((6 : Int) = 5 + 1 ↔ ((9 : Int) > 5 - 1 ∧ ((4 : Nat) : Int) ≥ 5 - 1)) ∧
    count_primes_interval 6 5 = some 0 :=
  ⟨by decide,
    ((worker_intervals_empty 5 9 (by decide) (by decide)).1 4 6 5 (by decide)).2.1,
    ((worker_intervals_empty 5 9 (by decide) (by decide)).1 4 6 5 (by decide)).2.2 (by decide)⟩

/-- C10 at `n = INT_MAX = 2147483647`: with `i * i` wrapped to 32 bits the loop test
never fails, the loop runs until `i = n` divides `n`, and `is_prime_basic` returns
`false` although `2147483647` is prime. -/
theorem is_prime_basic_int_max :
    is_prime_basic 2147483647 = some false ∧ Nat.Prime 2147483647 := by
  refine ⟨?_, mersenne31_prime⟩
  unfold is_prime_basic
  rw [if_neg (by decide), if_neg (by decide), if_neg (by decide)]
  exact is_prime_loop_int_max is_prime_fuel 3 (by decide) (by decide) (by decide)
    (by unfold is_prime_fuel; decide)

/-- C12 at `end = INT_MAX`, which `main` accepts as `N`: the test `i <= end` holds
for every `int` value of `i`, and `i++` at `INT_MAX` overflows (wraps to `INT_MIN`),
so the loop of `count_primes_interval` returns for no iteration budget, and neither
does `run_sequential`. -/
theorem count_primes_interval_int_max_never_returns :
    main all_granted ["primecount", "seq", "2147483647"] =
      ⟨none, some (Call.seq 2147483647)⟩ ∧
    wrap32 (2147483647 + 1) = -2147483648 ∧
    (∀ (fuel : Nat) (start prime_count : Int), start ≤ 2147483647 →
      count_loop fuel start 2147483647 prime_count = none) ∧
    run_sequential 2147483647 = none := by
  refine ⟨main_seq_int_max all_granted, by decide, ?_, ?_⟩
  · intro fuel start prime_count h
    exact count_loop_never_returns 2147483647 (le_refl _) fuel start prime_count h
  · exact count_loop_never_returns 2147483647 (le_refl _) count_fuel 2 0 (by decide)

end PrimeCount

namespace Cinema

/-! ## The search for a free pair -/

theorem buscar_par_some (fila : List Int) :
    ∀ (k j0 j : Nat), buscar_par fila k j0 = some j →
      j0 ≤ j ∧ j < j0 + k ∧ fila[j]? = some 0 ∧ fila[j + 1]? = some 0 ∧
      ∀ j', j0 ≤ j' → j' < j → ¬ (fila[j']? = some 0 ∧ fila[j' + 1]? = some 0) := by
  intro k
  induction k with
  | zero => intro j0 j h; exact Option.noConfusion h
  | succ k ih =>
    intro j0 j h
    unfold buscar_par at h
    by_cases hc : fila[j0]? = some 0 ∧ fila[j0 + 1]? = some 0
    · rw [if_pos hc] at h
      cases h
      exact ⟨le_refl _, by omega, hc.1, hc.2, fun j' h1 h2 => by omega⟩
    · rw [if_neg hc] at h
      obtain ⟨h1, h2, h3, h4, h5⟩ := ih (j0 + 1) j h
      refine ⟨by omega, by omega, h3, h4, ?_⟩
      intro j' hj1 hj2
      by_cases e : j' = j0
      · subst e; exact hc
      · exact h5 j' (by omega) hj2

theorem buscar_par_none (fila : List Int) :
    ∀ (k j0 : Nat), buscar_par fila k j0 = none →
      ∀ j', j0 ≤ j' → j' < j0 + k → ¬ (fila[j']? = some 0 ∧ fila[j' + 1]? = some 0) := by
  intro k
  induction k with
  | zero => intro j0 _ j' h1 h2; omega
  | succ k ih =>
    intro j0 h j' hj1 hj2
    unfold buscar_par at h
    by_cases hc : fila[j0]? = some 0 ∧ fila[j0 + 1]? = some 0
    · rw [if_pos hc] at h
      exact Option.noConfusion h
    · rw [if_neg hc] at h
      by_cases e : j' = j0
      · subst e; exact hc
      · exact ih (j0 + 1) h j' (by omega) (by omega)

/-! ## Counting occupied seats -/

theorem countP_set_free (cliente_id : Int) (hid : cliente_id ≠ 0) :
    ∀ (fila : List Int) (j : Nat), fila[j]? = some 0 →
      (fila.set j cliente_id).countP (fun a => a ≠ 0) = fila.countP (fun a => a ≠ 0) + 1 := by
  intro fila
  induction fila with
  | nil => intro j h; simp at h
  | cons x xs ih =>
    intro j h
    cases j with
    | zero =>
      simp only [List.getElem?_cons_zero, Option.some.injEq] at h
      subst h
      simp [List.countP_cons, hid]
    | succ j =>
      simp only [List.getElem?_cons_succ] at h
      simp only [List.set_cons_succ, List.countP_cons, ih j h]
      omega

theorem sum_map_set (g : List Int → Nat) :
    ∀ (l : List (List Int)) (i : Nat) (fila nova : List Int), l[i]? = some fila →
      ((l.set i nova).map g).sum + g fila = (l.map g).sum + g nova := by
  intro l
  induction l with
  | nil => intro i fila nova h; simp at h
  | cons x xs ih =>
    intro i fila nova h
    cases i with
    | zero =>
      simp only [List.getElem?_cons_zero, Option.some.injEq] at h
      subst h
      simp only [List.set_cons_zero, List.map_cons, List.sum_cons]
      omega
    | succ i =>
      simp only [List.getElem?_cons_succ] at h
      have := ih i fila nova h
      simp only [List.set_cons_succ, List.map_cons, List.sum_cons]
      omega

/-! ## One call of `tentar_reserva` -/

theorem assento_of_row (sala : Sala) (i : Nat) (fila : List Int)
    (h : sala.assentos[i]? = some fila) (j : Nat) : assento sala i j = fila[j]? := by
  unfold assento
  rw [h]

theorem row_of_lt (sala : Sala) (hwf : bem_formada sala) (fileira : Nat)
    (hf : fileira < FILEIRAS) :
    ∃ fila, sala.assentos[fileira]? = some fila ∧ sala.assentos.getD fileira [] = fila ∧
      fila.length = ASSENTOS_POR_FILEIRA := by
  have hlt : fileira < sala.assentos.length := by rw [hwf.1]; exact hf
  refine ⟨sala.assentos[fileira], List.getElem?_eq_getElem hlt, ?_, ?_⟩
  · rw [List.getD_eq_getElem?_getD, List.getElem?_eq_getElem hlt]
    rfl
  · exact hwf.2 _ (List.getElem_mem hlt)

/-- What a successful call does, for the pair `j`, `j + 1` found by the search. -/
theorem tentar_reserva_found (sala : Sala) (hwf : bem_formada sala) (cliente_id : Int)
    (hid : cliente_id ≠ 0) (fileira : Nat) (hf : fileira < FILEIRAS) (j : Nat)
    (hj : buscar_par (sala.assentos.getD fileira []) (ASSENTOS_POR_FILEIRA - 1) 0 = some j) :
    (tentar_reserva sala cliente_id fileira).2 = 1 ∧
    bem_formada (tentar_reserva sala cliente_id fileira).1 ∧
    total_ocupados (tentar_reserva sala cliente_id fileira).1 = total_ocupados sala + 2 ∧
    assento (tentar_reserva sala cliente_id fileira).1 fileira j = some cliente_id ∧
    assento (tentar_reserva sala cliente_id fileira).1 fileira (j + 1) = some cliente_id ∧
    (∀ i c, ¬ (i = fileira ∧ (c = j ∨ c = j + 1)) →
      assento (tentar_reserva sala cliente_id fileira).1 i c = assento sala i c) ∧
    (tentar_reserva sala cliente_id fileira).1.reservas_sucesso = sala.reservas_sucesso ∧
    (tentar_reserva sala cliente_id fileira).1.reservas_falha = sala.reservas_falha := by
  obtain ⟨fila, hrow, hgetD, hlen⟩ := row_of_lt sala hwf fileira hf
  have hlt : fileira < sala.assentos.length := by rw [hwf.1]; exact hf
  rw [hgetD] at hj
  obtain ⟨_, hj9, hfj, hfj1, _⟩ := buscar_par_some fila _ 0 j hj
  have hjl : j + 1 < fila.length := by
    rw [hlen]
    unfold ASSENTOS_POR_FILEIRA at hj9 ⊢
    omega
  have hres : tentar_reserva sala cliente_id fileira =
      ({ sala with
          assentos := sala.assentos.set fileira
            ((fila.set j cliente_id).set (j + 1) cliente_id) }, 1) := by
    unfold tentar_reserva
    rw [hgetD, hj]
  rw [hres]
  have hnew : (sala.assentos.set fileira ((fila.set j cliente_id).set (j + 1) cliente_id))[fileira]? =
      some ((fila.set j cliente_id).set (j + 1) cliente_id) := by
    rw [List.getElem?_set, if_pos rfl, if_pos hlt]
  refine ⟨rfl, ⟨?_, ?_⟩, ?_, ?_, ?_, ?_, rfl, rfl⟩
  · simp only [List.length_set]
    exact hwf.1
  · intro fila' hmem
    simp only at hmem
    rcases List.mem_or_eq_of_mem_set hmem with h | h
    · exact hwf.2 _ h
    · rw [h]
      simp only [List.length_set]
      exact hlen
  · unfold total_ocupados
    simp only
    have h1 := sum_map_set (fun fila => fila.countP fun a => a ≠ 0) sala.assentos fileira fila
      ((fila.set j cliente_id).set (j + 1) cliente_id) hrow
    have h2 := countP_set_free cliente_id hid fila j hfj
    have hfj1' : (fila.set j cliente_id)[j + 1]? = some 0 := by
      rw [List.getElem?_set_ne (by omega)]
      exact hfj1
    have h3 := countP_set_free cliente_id hid (fila.set j cliente_id) (j + 1) hfj1'
    simp only at h1
    omega
  · rw [assento_of_row _ fileira _ hnew, List.getElem?_set_ne (by omega), List.getElem?_set,
      if_pos rfl, if_pos (by omega)]
  · rw [assento_of_row _ fileira _ hnew, List.getElem?_set, if_pos rfl,
      if_pos (by simp only [List.length_set]; exact hjl)]
  · intro i c hne
    by_cases hi : i = fileira
    · subst hi
      have hc : c ≠ j ∧ c ≠ j + 1 := by
        constructor <;> intro hc <;> exact hne ⟨rfl, by omega⟩
      rw [assento_of_row _ i _ hnew, assento_of_row sala i fila hrow,
        List.getElem?_set_ne (Ne.symm hc.2), List.getElem?_set_ne (Ne.symm hc.1)]
    · unfold assento
      simp only
      rw [List.getElem?_set_ne (Ne.symm hi)]

theorem tentar_reserva_not_found (sala : Sala) (cliente_id : Int) (fileira : Nat)
    (hj : buscar_par (sala.assentos.getD fileira []) (ASSENTOS_POR_FILEIRA - 1) 0 = none) :
    tentar_reserva sala cliente_id fileira = (sala, 0) := by
  unfold tentar_reserva
  rw [hj]

/-! ## Sequences of calls -/

theorem inicializar_sala_bem_formada : bem_formada inicializar_sala := by
  constructor
  · rfl
  · intro fila h
    rw [List.eq_of_mem_replicate h]
    rfl

theorem executar_invariant :
    ∀ (calls : List (Int × Nat)) (sala : Sala), bem_formada sala →
      (∀ c ∈ calls, c.1 ≠ 0 ∧ c.2 < FILEIRAS) →
      bem_formada (executar sala calls).1 ∧
      total_ocupados (executar sala calls).1 =
        total_ocupados sala + 2 * (executar sala calls).2.count 1 := by
  intro calls
  induction calls with
  | nil =>
    intro sala hwf _
    exact ⟨hwf, by simp [executar]⟩
  | cons c resto ih =>
    intro sala hwf hc
    obtain ⟨cliente_id, fileira⟩ := c
    have hhead := hc (cliente_id, fileira) (List.mem_cons_self _ _)
    have hrest : ∀ c ∈ resto, c.1 ≠ 0 ∧ c.2 < FILEIRAS :=
      fun c h => hc c (List.mem_cons_of_mem _ h)
    simp only [executar]
    cases hj : buscar_par (sala.assentos.getD fileira []) (ASSENTOS_POR_FILEIRA - 1) 0 with
    | none =>
      rw [tentar_reserva_not_found sala cliente_id fileira hj]
      obtain ⟨h1, h2⟩ := ih sala hwf hrest
      refine ⟨h1, ?_⟩
      rw [h2, List.count_cons]
      simp
    | some j =>
      obtain ⟨hr, hwf', htot, _⟩ :=
        tentar_reserva_found sala hwf cliente_id hhead.1 fileira hhead.2 j hj
      obtain ⟨h1, h2⟩ := ih _ hwf' hrest
      refine ⟨h1, ?_⟩
      rw [h2, htot, hr, List.count_cons]
      simp
      ring

/-- C11: from the room set up by `inicializar_sala`, after any finite sequence of
`tentar_reserva` calls run one at a time with `cliente_id ≠ 0` and
`fileira < FILEIRAS`, the number of non-zero seats is twice the number of calls
that returned 1.  A call returns 1 exactly when its row has two adjacent free seats;
it then marks the leftmost such pair with `cliente_id` and changes no other seat; a
call that returns 0 leaves the room unchanged. -/
theorem tentar_reserva_accounting :
    (∀ calls : List (Int × Nat), (∀ c ∈ calls, c.1 ≠ 0 ∧ c.2 < FILEIRAS) →
      bem_formada (executar inicializar_sala calls).1 ∧
      total_ocupados (executar inicializar_sala calls).1 =
        2 * (executar inicializar_sala calls).2.count 1) ∧
    (∀ (sala : Sala) (cliente_id : Int) (fileira : Nat), bem_formada sala →
      cliente_id ≠ 0 → fileira < FILEIRAS →
      ((tentar_reserva sala cliente_id fileira).2 = 1 ∨
        (tentar_reserva sala cliente_id fileira).2 = 0) ∧
      ((tentar_reserva sala cliente_id fileira).2 = 1 ↔
        ∃ j, j + 1 < ASSENTOS_POR_FILEIRA ∧ assento sala fileira j = some 0 ∧
          assento sala fileira (j + 1) = some 0) ∧
      ((tentar_reserva sala cliente_id fileira).2 = 1 →
        ∃ j, j + 1 < ASSENTOS_POR_FILEIRA ∧
          assento sala fileira j = some 0 ∧ assento sala fileira (j + 1) = some 0 ∧
          (∀ j', j' < j →
            ¬ (assento sala fileira j' = some 0 ∧ assento sala fileira (j' + 1) = some 0)) ∧
          assento (tentar_reserva sala cliente_id fileira).1 fileira j = some cliente_id ∧
          assento (tentar_reserva sala cliente_id fileira).1 fileira (j + 1) =
            some cliente_id ∧
          (∀ i c, ¬ (i = fileira ∧ (c = j ∨ c = j + 1)) →
            assento (tentar_reserva sala cliente_id fileira).1 i c = assento sala i c)) ∧
      ((tentar_reserva sala cliente_id fileira).2 = 0 →
        tentar_reserva sala cliente_id fileira = (sala, 0))) := by
  constructor
  · intro calls hc
    obtain ⟨h1, h2⟩ := executar_invariant calls inicializar_sala inicializar_sala_bem_formada hc
    refine ⟨h1, ?_⟩
    rw [h2]
    have h0 : total_ocupados inicializar_sala = 0 := by decide
    omega
  · intro sala cliente_id fileira hwf hid hf
    obtain ⟨fila, hrow, hgetD, hlen⟩ := row_of_lt sala hwf fileira hf
    cases hj : buscar_par (sala.assentos.getD fileira []) (ASSENTOS_POR_FILEIRA - 1) 0 with
    | none =>
      have hres := tentar_reserva_not_found sala cliente_id fileira hj
      rw [hgetD] at hj
      have hno := buscar_par_none fila _ 0 hj
      have hnone : ¬ ∃ j, j + 1 < ASSENTOS_POR_FILEIRA ∧ assento sala fileira j = some 0 ∧
          assento sala fileira (j + 1) = some 0 := by
        rintro ⟨j, hj9, h1, h2⟩
        rw [assento_of_row sala fileira fila hrow] at h1 h2
        exact hno j (Nat.zero_le _) (by unfold ASSENTOS_POR_FILEIRA at hj9 ⊢; omega) ⟨h1, h2⟩
      rw [hres]
      have h01 : ¬ ((0 : Int) = 1) := by decide
      refine ⟨Or.inr rfl, ⟨fun h => absurd h h01, fun h => absurd h hnone⟩,
        fun h => absurd h h01, fun _ => rfl⟩
    | some j =>
      obtain ⟨hr, _, _, hs1, hs2, hother, _⟩ :=
        tentar_reserva_found sala hwf cliente_id hid fileira hf j hj
      rw [hgetD] at hj
      obtain ⟨_, hj9, hfj, hfj1, hleft⟩ := buscar_par_some fila _ 0 j hj
      have hj10 : j + 1 < ASSENTOS_POR_FILEIRA := by
        unfold ASSENTOS_POR_FILEIRA at hj9 ⊢
        omega
      have hfree : assento sala fileira j = some 0 ∧ assento sala fileira (j + 1) = some 0 := by
        rw [assento_of_row sala fileira fila hrow, assento_of_row sala fileira fila hrow]
        exact ⟨hfj, hfj1⟩
      refine ⟨Or.inl hr, ⟨fun _ => ⟨j, hj10, hfree.1, hfree.2⟩, fun _ => hr⟩, ?_, ?_⟩
      · intro _
        refine ⟨j, hj10, hfree.1, hfree.2, ?_, hs1, hs2, hother⟩
        intro j' hj' hc
        rw [assento_of_row sala fileira fila hrow, assento_of_row sala fileira fila hrow] at hc
        exact hleft j' (Nat.zero_le _) hj' hc
      · intro h0
        rw [hr] at h0
        exact absurd h0 (by decide)

end Cinema

namespace Ex6

theorem store_result_keeps_out_of_bounds (s : WaitState) (result x : Int)
    (h : x ∈ s.out_of_bounds) : x ∈ (store_result s result).out_of_bounds := by
  unfold store_result
  split_ifs
  · exact h
  · exact List.mem_append_left _ h

theorem wait_loop_keeps_out_of_bounds :
    ∀ (terminated : List Nat) (s : WaitState) (x : Int), x ∈ s.out_of_bounds →
      x ∈ (wait_loop terminated s).out_of_bounds := by
  intro terminated
  induction terminated with
  | nil => intro s x h; exact h
  | cons i rest ih =>
    intro s x h
    exact ih _ x (store_result_keeps_out_of_bounds s _ x h)

theorem wait_loop_last_child_out_of_bounds :
    ∀ (terminated : List Nat) (s : WaitState), 4 ∈ terminated →
      5 ∈ (wait_loop terminated s).out_of_bounds := by
  intro terminated
  induction terminated with
  | nil => intro s h; exact absurd h (List.not_mem_nil _)
  | cons i rest ih =>
    intro s h
    rcases List.mem_cons.1 h with h4 | h4
    · subst h4
      rw [wait_loop]
      apply wait_loop_keeps_out_of_bounds
      have e : WEXITSTATUS (child_exit_status 4) = 5 := by decide
      rw [e]
      unfold store_result
      rw [if_neg (by decide)]
      exact List.mem_append_right _ (List.mem_singleton_self _)
    · exact ih _ h4

theorem wait_loop_first_entry :
    ∀ (terminated : List Nat) (s : WaitState), (∀ i ∈ terminated, i < NUM_CHILDREN) →
      (wait_loop terminated s).child_returns[0]? = s.child_returns[0]? := by
  intro terminated
  induction terminated with
  | nil => intro s _; rfl
  | cons i rest ih =>
    intro s h
    have hi : i < NUM_CHILDREN := h i (List.mem_cons_self _ _)
    unfold NUM_CHILDREN at hi
    rw [wait_loop, ih _ (fun k hk => h k (List.mem_cons_of_mem _ hk))]
    unfold store_result WEXITSTATUS child_exit_status
    split_ifs with hc
    · simp only
      rw [List.getElem?_set_ne]
      omega
    · rfl

/-- C13 at child `i = 4`: its exit status is 5, so the parent stores at
`child_returns[5]`, outside the array of `NUM_CHILDREN = 5` entries, and
`child_returns[0]`, which the print loop reads, is never assigned. -/
theorem child_returns_store_out_of_bounds :
    WEXITSTATUS (child_exit_status 4) = 5 ∧ ¬ ((5 : Int) < NUM_CHILDREN) ∧
    wait_loop [0, 1, 2, 3, 4] before_wait =
      ⟨[none, some 1, some 2, some 3, some 4], [5]⟩ ∧
    (∀ terminated : List Nat, 4 ∈ terminated →
      5 ∈ (wait_loop terminated before_wait).out_of_bounds) ∧
    (∀ terminated : List Nat, (∀ i ∈ terminated, i < NUM_CHILDREN) →
      (wait_loop terminated before_wait).child_returns[0]? = some none) := by
  refine ⟨by decide, by decide, by decide, ?_, ?_⟩
  · intro terminated h
    exact wait_loop_last_child_out_of_bounds terminated before_wait h
  · intro terminated h
    rw [wait_loop_first_entry terminated before_wait h]
    rfl

end Ex6
